import Mathlib

/-!
# Verification of `src/scheduler/svm.cpp` (SVM cache scheduler)

Shallow embedding of the optimal-replacement oracle `OPTgen`, the recency
register `PCHR`, the eviction order `CacheObject::operator<` and the engine
`SVMScheduler` (`Insert`, `Delete`, `run`), followed by theorems about them.

Modelling conventions.

* `std::map<uint64_t, V>` is an association list `List (Nat × V)` that is only
  built through `mapSet`; `mapFind` is `find`, `mapSet` is insert-or-assign
  (`emplace` of an absent key, `operator[]=` and in-place mutation through an
  iterator).  The code never iterates over a map.
* `std::set<CacheObject>` is a list kept ascending under `CacheObject.lt`;
  `begin()` is the head, `insert` is the ordered insertion `setInsert` (which
  keeps an equivalent element), `erase(it)` removes the element `it` points to.
* Dereferencing an `end()` iterator is undefined behaviour: the scheduler
  operations return `Option` and yield `none` there.
* `uint64_t` occupancy counters wrap modulo `2^64`.  The logical clock
  (`int64_t`, starting at `-1`) is an unbounded `Int`: streams are shorter than
  `2^63` accesses.  Weights and predictions are `Int`.
* The `assert` on line 39 of the source is modelled separately by
  `OPTgen.assertHolds`; the transition functions describe the build in which
  assertions are compiled out (`NDEBUG`).
-/

namespace SVM

/-! ## Finite maps -/

/-- Lookup in an association list: `std::map::find`. -/
def mapFind {V : Type} : List (Nat × V) → Nat → Option V
  | [], _ => none
  | (k, v) :: m, x => if k = x then some v else mapFind m x

/-- Insert-or-assign in an association list: the value stored under `x`
becomes `v`; a new entry is created when `x` has none. -/
def mapSet {V : Type} : List (Nat × V) → Nat → V → List (Nat × V)
  | [], x, v => [(x, v)]
  | (k, w) :: m, x, v => if k = x then (k, v) :: m else (k, w) :: mapSet m x v

/-! ## The oracle `OPTgen` -/

/-- The C++ `enum Status`. -/
inductive Status where
  | FirstAppear
  | Miss
  | Hit
  deriving DecidableEq, Repr

/-- The C++ `class OPTgen`. -/
structure OPTgen where
  CacheSize : Nat
  Capacity : List Nat
  LastVisitedTime : List (Nat × Int)
  TimeStamp : Int
  deriving DecidableEq, Repr

/-- The constructor `OPTgen(cache_size)`. -/
def OPTgen.new (cache_size : Nat) : OPTgen :=
  { CacheSize := cache_size, Capacity := [], LastVisitedTime := [], TimeStamp := -1 }

/-- The index values `lo, lo+1, ..., hi` visited by
`for (auto i = lo; i <= hi; i++)`. -/
def span (lo hi : Int) : List Int :=
  (List.range (hi + 1 - lo).toNat).map (fun (k : Nat) => lo + (k : Int))

/-- The first loop of `TimeStampInc` (lines 45-50): `true` when some slot of
the span equals `CacheSize`. -/
def spanSaturated (Capacity : List Nat) (CacheSize : Nat) (lo hi : Int) : Bool :=
  (span lo hi).any (fun i => Capacity.getD i.toNat 0 == CacheSize)

/-- One `Capacity[i]++` on a `uint64_t` slot. -/
def incSlot (Capacity : List Nat) (i : Int) : List Nat :=
  Capacity.set i.toNat ((Capacity.getD i.toNat 0 + 1) % 2 ^ 64)

/-- The second loop of `TimeStampInc` (lines 53-54). -/
def incSpan (Capacity : List Nat) (lo hi : Int) : List Nat :=
  (span lo hi).foldl incSlot Capacity

/-- The condition of the `assert` on line 39, evaluated on the state right
after `++TimeStamp; Capacity.push_back(0)`. -/
def OPTgen.assertHolds (g : OPTgen) : Bool :=
  decide (((g.Capacity ++ [0]).length : Int) = g.TimeStamp + 1)

/-- The method `OPTgen::TimeStampInc(obj_id)`: the new state and the returned
label. -/
def OPTgen.TimeStampInc (g : OPTgen) (obj_id : Nat) : OPTgen × Status :=
  let TimeStamp := g.TimeStamp + 1
  let Capacity := g.Capacity ++ [0]
  let ret : Status :=
    match mapFind g.LastVisitedTime obj_id with
    | none => Status.FirstAppear
    | some last =>
      if spanSaturated Capacity g.CacheSize last TimeStamp then Status.Miss else Status.Hit
  let Capacity :=
    if ret = Status.Hit then
      incSpan Capacity ((mapFind g.LastVisitedTime obj_id).getD 0) TimeStamp
    else Capacity
  ({ CacheSize := g.CacheSize, Capacity := Capacity,
     LastVisitedTime := mapSet g.LastVisitedTime obj_id TimeStamp,
     TimeStamp := TimeStamp }, ret)

/-- The oracle state after feeding a request stream to `TimeStampInc`. -/
def OPTgen.feed (g : OPTgen) (stream : List Nat) : OPTgen :=
  stream.foldl (fun g id => (g.TimeStampInc id).1) g

/-- The labels returned by `TimeStampInc` along a request stream. -/
def OPTgen.labels : OPTgen → List Nat → List Status
  | _, [] => []
  | g, id :: rest => (g.TimeStampInc id).2 :: OPTgen.labels (g.TimeStampInc id).1 rest

/-! ## The recency register `PCHR` -/

/-- The C++ `class PCHR`. -/
structure PCHR where
  elements : List Nat
  deriving DecidableEq, Repr

/-- The constant `PCHR::PCHRSize`. -/
def PCHR.PCHRSize : Nat := 5

/-- The constructor `PCHR()`. -/
def PCHR.new : PCHR := { elements := [] }

/-- The method `PCHR::Insert(obj_id)`: erase the first occurrence of `obj_id`,
insert it at the front, pop the back when the size exceeds `PCHRSize`. -/
def PCHR.Insert (r : PCHR) (obj_id : Nat) : PCHR :=
  let elements := r.elements.erase obj_id
  let elements := obj_id :: elements
  if elements.length > PCHR.PCHRSize then { elements := elements.dropLast }
  else { elements := elements }

/-- The register after a sequence of `Insert` calls. -/
def PCHR.insertAll (r : PCHR) (ids : List Nat) : PCHR :=
  ids.foldl PCHR.Insert r

/-! ## The eviction set -/

/-- The C++ `class CacheObject`. -/
structure CacheObject where
  obj_id : Nat
  LastVisitedTime : Nat
  CacheFriend : Int
  deriving DecidableEq, Repr

/-- The comparison `CacheObject::operator<`. -/
def CacheObject.lt (a rhs : CacheObject) : Bool :=
  if a.CacheFriend ≠ rhs.CacheFriend then decide (a.CacheFriend < rhs.CacheFriend)
  else if a.LastVisitedTime ≠ rhs.LastVisitedTime then
    decide (a.LastVisitedTime < rhs.LastVisitedTime)
  else decide (a.obj_id < rhs.obj_id)

/-- Ordered insertion `std::set::insert`: nothing is inserted when an
equivalent element is present. -/
def setInsert (x : CacheObject) : List CacheObject → List CacheObject
  | [] => [x]
  | y :: ys =>
    if x.lt y then x :: y :: ys
    else if y.lt x then y :: setInsert x ys
    else y :: ys

/-- Lookup `std::set::find`: the stored element equivalent to `x` under the
comparison, `none` for `end()`. -/
def setFind (Cache : List CacheObject) (x : CacheObject) : Option CacheObject :=
  Cache.find? (fun y => !x.lt y && !y.lt x)

/-! ## The engine `SVMScheduler` -/

/-- The C++ `class SVMObject`. -/
structure SVMObject where
  IsInCache : Bool
  obj_id : Nat
  LastVisitedTime : Nat
  CacheFriend : Int
  weights : List (Nat × Int)
  deriving DecidableEq, Repr

/-- The constant `SVMScheduler::TrainingThreshold`. -/
def TrainingThreshold : Int := 30

/-- The constant `SVMScheduler::PredictionThreshold`. -/
def PredictionThreshold : Int := 60

/-- The constant `SVMScheduler::LearningRate`. -/
def LearningRate : Int := 1

/-- The C++ `class SVMScheduler`, with the field it inherits from its base
class `Scheduler`. -/
structure SVMScheduler where
  /-- Modelled from the spec: the member `cache_size` of the base class
  `Scheduler` (`scheduler.hpp`), the capacity handed to the constructor and
  fixed for the lifetime of the engine. -/
  cache_size : Nat
  Gen : OPTgen
  PCRegister : PCHR
  Cache : List CacheObject
  ObjInfo : List (Nat × SVMObject)
  deriving DecidableEq, Repr

/-- Modelled from the spec: the `Result` record of `scheduler.hpp`, built by
`Result(requests)`; it carries the total request count and the counter
`cache_misses`, which starts at zero. -/
structure Result where
  total : Nat
  cache_misses : Nat
  deriving DecidableEq, Repr

/-- The constructor `SVMScheduler(cache_size)`. -/
def SVMScheduler.new (cache_size : Nat) : SVMScheduler :=
  { cache_size := cache_size, Gen := OPTgen.new cache_size, PCRegister := PCHR.new,
    Cache := [], ObjInfo := [] }

/-- The method `SVMScheduler::CheckInCache`. -/
def SVMScheduler.CheckInCache (s : SVMScheduler) (obj_id : Nat) : Bool :=
  match mapFind s.ObjInfo obj_id with
  | some rec => rec.IsInCache
  | none => false

/-- The method `SVMScheduler::Delete`.  It is `none` when `Cache.begin()` or
`ObjInfo.find` yields `end()` and is dereferenced. -/
def SVMScheduler.Delete (s : SVMScheduler) : Option SVMScheduler :=
  match s.Cache with
  | [] => none
  | it :: rest =>
    match mapFind s.ObjInfo it.obj_id with
    | none => none
    | some rec =>
      some { s with
        ObjInfo := mapSet s.ObjInfo it.obj_id { rec with IsInCache := false }
        Cache := rest }

/-- The `else` branch of `SVMScheduler::Insert` (lines 166-176): evict when the
set is full, insert the new triple, update or create the record. -/
def SVMScheduler.InsertNew (s : SVMScheduler) (obj_id LastVisitedTime : Nat)
    (CacheFriend : Int) : Option SVMScheduler :=
  (if s.Cache.length = s.cache_size then s.Delete else some s).bind fun s1 =>
    let Cache := setInsert ⟨obj_id, LastVisitedTime, CacheFriend⟩ s1.Cache
    match mapFind s1.ObjInfo obj_id with
    | some rec =>
      some { s1 with
        Cache := Cache
        ObjInfo := mapSet s1.ObjInfo obj_id
          { rec with CacheFriend := CacheFriend, LastVisitedTime := LastVisitedTime,
                     IsInCache := true } }
    | none =>
      some { s1 with
        Cache := Cache
        ObjInfo := mapSet s1.ObjInfo obj_id
          { IsInCache := true, obj_id := obj_id, LastVisitedTime := LastVisitedTime,
            CacheFriend := CacheFriend, weights := [] } }

/-- The method `SVMScheduler::Insert`.  In the refresh branch it is `none` when
`Cache.find` yields `end()`, which is then erased. -/
def SVMScheduler.Insert (s : SVMScheduler) (obj_id LastVisitedTime : Nat)
    (CacheFriend : Int) : Option SVMScheduler :=
  match mapFind s.ObjInfo obj_id with
  | some rec =>
    if rec.IsInCache then
      match setFind s.Cache ⟨obj_id, rec.LastVisitedTime, rec.CacheFriend⟩ with
      | none => none
      | some Cache_it =>
        some { s with
          Cache := setInsert ⟨obj_id, LastVisitedTime, CacheFriend⟩ (s.Cache.erase Cache_it)
          ObjInfo := mapSet s.ObjInfo obj_id
            { rec with CacheFriend := CacheFriend, LastVisitedTime := LastVisitedTime,
                       IsInCache := true } }
    else s.InsertNew obj_id LastVisitedTime CacheFriend
  | none => s.InsertNew obj_id LastVisitedTime CacheFriend

/-- One iteration of the loop over the register in `run` (lines 202-222): the
running prediction and the weight map of the accessed object, for context `v`. -/
def trainStep (status : Status) (acc : Int × List (Nat × Int)) (v : Nat) :
    Int × List (Nat × Int) :=
  let it := mapFind acc.2 v
  let prediction := match it with
    | some w => acc.1 + w
    | none => acc.1
  let weights := match it with
    | some _ => acc.2
    | none => mapSet acc.2 v 0
  let w := (mapFind weights v).getD 0
  if status = Status.Hit then
    if w ≤ TrainingThreshold then (prediction, mapSet weights v (w + LearningRate))
    else (prediction, weights)
  else
    if w ≥ -TrainingThreshold then (prediction, mapSet weights v (w - LearningRate))
    else (prediction, weights)

/-- The loop over the register in `run` (lines 200-223), started with
`prediction = 0`. -/
def trainLoop (status : Status) (elements : List Nat) (weights : List (Nat × Int)) :
    Int × List (Nat × Int) :=
  elements.foldl (trainStep status) (0, weights)

/-- The body of the loop of `SVMScheduler::run` (lines 191-226) for one
request. -/
def SVMScheduler.access (s : SVMScheduler) (result : Result) (obj_id : Nat) :
    Option (SVMScheduler × Result) :=
  let gs := s.Gen.TimeStampInc obj_id
  let status := gs.2
  let TimeStamp := gs.1.TimeStamp
  let IsInCache := s.CheckInCache obj_id
  let result : Result :=
    if !IsInCache then { result with cache_misses := result.cache_misses + 1 } else result
  let po : Int × List (Nat × SVMObject) :=
    match mapFind s.ObjInfo obj_id with
    | some rec =>
      let pw := trainLoop status s.PCRegister.elements rec.weights
      (pw.1, mapSet s.ObjInfo obj_id { rec with weights := pw.2 })
    | none => (0, s.ObjInfo)
  (SVMScheduler.Insert { s with Gen := gs.1, ObjInfo := po.2 } obj_id TimeStamp.toNat po.1).bind
    fun s1 => some ({ s1 with PCRegister := s1.PCRegister.Insert obj_id }, result)

/-- The loop of `SVMScheduler::run` over the requests. -/
def SVMScheduler.runFrom : SVMScheduler → Result → List Nat →
    Option (SVMScheduler × Result)
  | s, result, [] => some (s, result)
  | s, result, obj_id :: rest =>
    (s.access result obj_id).bind fun sr => SVMScheduler.runFrom sr.1 sr.2 rest

/-- The method `SVMScheduler::run(requests)`: the final engine state and the
returned report. -/
def SVMScheduler.run (s : SVMScheduler) (requests : List Nat) :
    Option (SVMScheduler × Result) :=
  s.runFrom { total := requests.length, cache_misses := 0 } requests

/-- The weight the record of `obj_id` stores for context `v`, if any. -/
def SVMScheduler.weight (s : SVMScheduler) (obj_id v : Nat) : Option Int :=
  (mapFind s.ObjInfo obj_id).bind fun rec => mapFind rec.weights v

/-- The object ids of the triples in the eviction set, in set order. -/
def SVMScheduler.resident (s : SVMScheduler) : List Nat :=
  s.Cache.map CacheObject.obj_id

/-! ## Invariants -/

/-- Well-formedness of an oracle state: one occupancy slot per clock value
`0 .. TimeStamp`, every recorded access time is a clock value already reached,
and no slot exceeds the capacity. -/
def OPTgen.WF (g : OPTgen) : Prop :=
  (g.Capacity.length : Int) = g.TimeStamp + 1 ∧
  (∀ id t, mapFind g.LastVisitedTime id = some t → 0 ≤ t ∧ t ≤ g.TimeStamp) ∧
  (∀ c ∈ g.Capacity, c ≤ g.CacheSize)

/-- The eviction-set triple that belongs to the record `rec` of object `id`. -/
def tripleOf (id : Nat) (rec : SVMObject) : CacheObject :=
  { obj_id := id, LastVisitedTime := rec.LastVisitedTime, CacheFriend := rec.CacheFriend }

/-- The number of `ObjInfo` records with `IsInCache == true`. -/
def cachedCount (ObjInfo : List (Nat × SVMObject)) : Nat :=
  ObjInfo.countP (fun p => p.2.IsInCache)

/-- Consistency of the eviction set with the object records: the set is
strictly ascending under `operator<`, the map has one record per key, every
triple of the set belongs to a record that is flagged `IsInCache` and carries
the triple's `LastVisitedTime` and `CacheFriend`, and every record flagged
`IsInCache` has its triple in the set. -/
def ConsistentCO (Cache : List CacheObject) (ObjInfo : List (Nat × SVMObject)) : Prop :=
  Cache.Pairwise (fun a b => a.lt b = true) ∧
  (ObjInfo.map Prod.fst).Nodup ∧
  (∀ c ∈ Cache, (mapFind ObjInfo c.obj_id).map
      (fun rec => (rec.IsInCache, tripleOf c.obj_id rec)) = some (true, c)) ∧
  (∀ p ∈ ObjInfo, p.2.IsInCache = true → tripleOf p.1 p.2 ∈ Cache)

instance (Cache : List CacheObject) (ObjInfo : List (Nat × SVMObject)) :
    Decidable (ConsistentCO Cache ObjInfo) := by
  unfold ConsistentCO
  infer_instance

/-- A consistent cache state of the engine. -/
def SVMScheduler.Consistent (s : SVMScheduler) : Prop :=
  ConsistentCO s.Cache s.ObjInfo

instance (s : SVMScheduler) : Decidable s.Consistent := by
  unfold SVMScheduler.Consistent
  infer_instance

/-- The invariant of the engine along a run: consistency, as many flagged
records as triples, and at most `cache_size` triples. -/
def SVMScheduler.Inv (s : SVMScheduler) : Prop :=
  s.Consistent ∧ cachedCount s.ObjInfo = s.Cache.length ∧ s.Cache.length ≤ s.cache_size

/-- Every stored weight of every record lies between `lo` and `hi`. -/
def WeightsWithin (lo hi : Int) (ObjInfo : List (Nat × SVMObject)) : Prop :=
  ∀ p ∈ ObjInfo, ∀ q ∈ p.2.weights, lo ≤ q.2 ∧ q.2 ≤ hi

/-- The key `(CacheFriend, LastVisitedTime, obj_id)` of `a` is at most the key
of `b` in the lexicographic order. -/
def lexLe (a b : CacheObject) : Prop :=
  a.CacheFriend < b.CacheFriend ∨
    (a.CacheFriend = b.CacheFriend ∧
      (a.LastVisitedTime < b.LastVisitedTime ∨
        (a.LastVisitedTime = b.LastVisitedTime ∧ a.obj_id ≤ b.obj_id)))

/-- A consistent state in which objects 1 and 2 are cached with equal priority
and equal last time. -/
def tieState : SVMScheduler :=
  { cache_size := 2, Gen := OPTgen.new 2, PCRegister := PCHR.new,
    Cache := [⟨1, 5, 0⟩, ⟨2, 5, 0⟩],
    ObjInfo := [(1, ⟨true, 1, 5, 0, []⟩), (2, ⟨true, 2, 5, 0, []⟩)] }

/-! ## Scoring and training as two passes -/

/-- The score of spec section 4.3: the sum, over the contexts, of the weight
stored for the context, an absent context contributing 0; no entry is
created. -/
def score (weights : List (Nat × Int)) (contexts : List Nat) : Int :=
  (contexts.map fun c => (mapFind weights c).getD 0).sum

/-- Training for one context without scoring: create the entry with 0 when it
is absent, then apply the guarded update of the source (lines 207-222). -/
def trainOne (status : Status) (weights : List (Nat × Int)) (v : Nat) : List (Nat × Int) :=
  let weights := match mapFind weights v with
    | some _ => weights
    | none => mapSet weights v 0
  let w := (mapFind weights v).getD 0
  if status = Status.Hit then
    if w ≤ TrainingThreshold then mapSet weights v (w + LearningRate) else weights
  else
    if w ≥ -TrainingThreshold then mapSet weights v (w - LearningRate) else weights

/-- The training pass of spec section 4.3 over all contexts, in order. -/
def train (status : Status) (weights : List (Nat × Int)) (contexts : List Nat) :
    List (Nat × Int) :=
  contexts.foldl (trainOne status) weights

/-- First score over the whole snapshot, then train over the same snapshot. -/
def scoreThenTrain (status : Status) (contexts : List Nat) (weights : List (Nat × Int)) :
    Int × List (Nat × Int) :=
  (score weights contexts, train status weights contexts)

/-- Two cache entries agree on all three fields. -/
def CacheObject.agree (a b : CacheObject) : Prop :=
  a.CacheFriend = b.CacheFriend ∧ a.LastVisitedTime = b.LastVisitedTime ∧ a.obj_id = b.obj_id

/-- The fields of a record other than the flag `IsInCache`. -/
def SVMObject.payload (r : SVMObject) : Nat × Nat × Int × List (Nat × Int) :=
  (r.obj_id, r.LastVisitedTime, r.CacheFriend, r.weights)

/-- The weight map of the record of `obj_id`, if there is a record. -/
def SVMScheduler.weightsOf (s : SVMScheduler) (obj_id : Nat) : Option (List (Nat × Int)) :=
  (mapFind s.ObjInfo obj_id).map fun rec => rec.weights

/-- The prediction computed by `run` for an access to `obj_id` in state `s`
when the oracle label is `status` (lines 197-224): 0 without a record. -/
def SVMScheduler.prediction (s : SVMScheduler) (status : Status) (obj_id : Nat) : Int :=
  match mapFind s.ObjInfo obj_id with
  | some rec => (trainLoop status s.PCRegister.elements rec.weights).1
  | none => 0

/-- The weight map of `obj_id` after the loop of lines 197-224, before
`Insert`: trained when there is a record, absent otherwise. -/
def SVMScheduler.trained (s : SVMScheduler) (status : Status) (obj_id : Nat) :
    Option (List (Nat × Int)) :=
  match mapFind s.ObjInfo obj_id with
  | some rec => some (trainLoop status s.PCRegister.elements rec.weights).2
  | none => none

/-- Further facts that hold in every engine state reached by `run`: the
records are those of the ids the oracle has seen, every stored priority lies in
`[-155, 155]`, every weight in `[-31, 31]`, and the register holds at most
`PCHRSize` pairwise distinct ids. -/
def SVMScheduler.Reach (s : SVMScheduler) : Prop :=
  (∀ k, (mapFind s.ObjInfo k).isSome = (mapFind s.Gen.LastVisitedTime k).isSome) ∧
  (∀ k rec, mapFind s.ObjInfo k = some rec →
    -155 ≤ rec.CacheFriend ∧ rec.CacheFriend ≤ 155) ∧
  WeightsWithin (-31) 31 s.ObjInfo ∧
  s.PCRegister.elements.length ≤ PCHR.PCHRSize ∧
  s.PCRegister.elements.Nodup ∧
  s.Gen.WF

/-! ## Lemmas on finite maps -/

theorem mapFind_mapSet {V : Type} (m : List (Nat × V)) (x y : Nat) (v : V) :
    mapFind (mapSet m x v) y = if x = y then some v else mapFind m y := by
  induction m with
  | nil => simp [mapSet, mapFind]
  | cons p m ih =>
    obtain ⟨k, w⟩ := p
    by_cases hk : k = x
    · subst hk
      by_cases hy : k = y <;> simp [mapSet, mapFind, hy]
    · by_cases hy : k = y
      · subst hy
        have : ¬ x = k := fun h => hk h.symm
        simp [mapSet, mapFind, hk, this]
      · simp [mapSet, mapFind, hk, hy, ih]

theorem mapFind_mapSet_self {V : Type} (m : List (Nat × V)) (x : Nat) (v : V) :
    mapFind (mapSet m x v) x = some v := by
  simp [mapFind_mapSet]

theorem mapFind_mapSet_ne {V : Type} (m : List (Nat × V)) (x y : Nat) (v : V) (h : x ≠ y) :
    mapFind (mapSet m x v) y = mapFind m y := by
  simp [mapFind_mapSet, h]

/-! ## Lemmas on the oracle loops -/

theorem mem_span (lo hi i : Int) : i ∈ span lo hi ↔ lo ≤ i ∧ i ≤ hi := by
  unfold span
  simp only [List.mem_map, List.mem_range]
  constructor
  · rintro ⟨k, hk, rfl⟩
    omega
  · rintro ⟨h1, h2⟩
    exact ⟨(i - lo).toNat, by omega, by omega⟩

theorem spanSaturated_iff (Capacity : List Nat) (cs : Nat) (lo hi : Int) :
    spanSaturated Capacity cs lo hi = true ↔
      ∃ i, lo ≤ i ∧ i ≤ hi ∧ Capacity.getD i.toNat 0 = cs := by
  unfold spanSaturated
  simp only [List.any_eq_true, mem_span, beq_iff_eq]
  constructor
  · rintro ⟨i, ⟨h1, h2⟩, h3⟩
    exact ⟨i, h1, h2, h3⟩
  · rintro ⟨i, h1, h2, h3⟩
    exact ⟨i, ⟨h1, h2⟩, h3⟩

theorem incSlot_length (Capacity : List Nat) (i : Int) :
    (incSlot Capacity i).length = Capacity.length := by
  simp [incSlot]

theorem incSlot_getD (Capacity : List Nat) (i : Int) (j : Nat) :
    (incSlot Capacity i).getD j 0 =
      if i.toNat = j ∧ j < Capacity.length then (Capacity.getD j 0 + 1) % 2 ^ 64
      else Capacity.getD j 0 := by
  unfold incSlot
  simp only [List.getD_eq_getElem?_getD, List.getElem?_set]
  by_cases h : i.toNat = j
  · subst h
    by_cases hl : i.toNat < Capacity.length
    · simp [hl]
    · simp [hl]
      have : Capacity[i.toNat]? = none := by
        apply List.getElem?_eq_none
        omega
      simp [this]
  · simp [h]

/-- The fold of `incSlot` over `n` consecutive indices starting at `lo`. -/
theorem foldl_incSlot_range (lo : Int) (hlo : 0 ≤ lo) (n : Nat) (Capacity : List Nat) :
    (((List.range n).map (fun (k : Nat) => lo + (k : Int))).foldl incSlot Capacity).length
        = Capacity.length ∧
    ∀ j, (((List.range n).map (fun (k : Nat) => lo + (k : Int))).foldl incSlot Capacity).getD j 0 =
      if lo.toNat ≤ j ∧ j < lo.toNat + n ∧ j < Capacity.length
      then (Capacity.getD j 0 + 1) % 2 ^ 64 else Capacity.getD j 0 := by
  induction n with
  | zero =>
    refine ⟨by simp, fun j => ?_⟩
    have h3 : ¬ (lo.toNat ≤ j ∧ j < lo.toNat + 0 ∧ j < Capacity.length) := by omega
    simp only [List.range_zero, List.map_nil, List.foldl_nil, h3, if_false]
  | succ n ih =>
    obtain ⟨ihl, ihg⟩ := ih
    rw [List.range_succ, List.map_append, List.foldl_append]
    simp only [List.map_cons, List.map_nil, List.foldl_cons, List.foldl_nil]
    refine ⟨by rw [incSlot_length, ihl], fun j => ?_⟩
    rw [incSlot_getD, ihl, ihg]
    have e : (lo + (n : Int)).toNat = lo.toNat + n := by omega
    rw [e]
    by_cases h1 : lo.toNat + n = j
    · by_cases h2 : j < Capacity.length
      · have h3 : ¬ (lo.toNat ≤ j ∧ j < lo.toNat + n ∧ j < Capacity.length) := by omega
        have h4 : lo.toNat ≤ j ∧ j < lo.toNat + (n + 1) ∧ j < Capacity.length := by omega
        simp [h1, h2, h3, h4]
      · have h3 : ¬ (lo.toNat ≤ j ∧ j < lo.toNat + n ∧ j < Capacity.length) := by omega
        have h4 : ¬ (lo.toNat ≤ j ∧ j < lo.toNat + (n + 1) ∧ j < Capacity.length) := by omega
        simp [h1, h2, h3, h4]
    · have h5 : (lo.toNat ≤ j ∧ j < lo.toNat + (n + 1) ∧ j < Capacity.length) ↔
          (lo.toNat ≤ j ∧ j < lo.toNat + n ∧ j < Capacity.length) := by omega
      simp only [h1, false_and, if_false, h5]

theorem incSpan_length (Capacity : List Nat) (lo hi : Int) (hlo : 0 ≤ lo) :
    (incSpan Capacity lo hi).length = Capacity.length :=
  (foldl_incSlot_range lo hlo _ Capacity).1

theorem incSpan_getD (Capacity : List Nat) (lo hi : Int) (hlo : 0 ≤ lo) (j : Nat) :
    (incSpan Capacity lo hi).getD j 0 =
      if lo ≤ (j : Int) ∧ (j : Int) ≤ hi ∧ j < Capacity.length
      then (Capacity.getD j 0 + 1) % 2 ^ 64 else Capacity.getD j 0 := by
  unfold incSpan span
  rw [(foldl_incSlot_range lo hlo _ Capacity).2 j]
  have h : (lo.toNat ≤ j ∧ j < lo.toNat + (hi + 1 - lo).toNat ∧ j < Capacity.length) ↔
      (lo ≤ (j : Int) ∧ (j : Int) ≤ hi ∧ j < Capacity.length) := by omega
  simp only [h]


/-! ## The oracle: well-formedness and single steps -/

theorem getD_append_zero (l : List Nat) (j : Nat) :
    (l ++ [0]).getD j 0 = l.getD j 0 := by
  simp only [List.getD_eq_getElem?_getD]
  by_cases h : j < l.length
  · rw [List.getElem?_append_left h]
  · have h1 : l[j]? = none := List.getElem?_eq_none (by omega)
    rw [h1]
    by_cases h2 : j = l.length
    · subst h2
      simp
    · have h3 : (l ++ [0])[j]? = none :=
        List.getElem?_eq_none (by simp only [List.length_append, List.length_singleton]; omega)
      rw [h3]

theorem mem_iff_getD (l : List Nat) (c : Nat) :
    c ∈ l ↔ ∃ j, j < l.length ∧ l.getD j 0 = c := by
  constructor
  · intro h
    obtain ⟨j, hj, e⟩ := List.getElem_of_mem h
    exact ⟨j, hj, by simp [List.getD_eq_getElem?_getD, List.getElem?_eq_getElem hj, e]⟩
  · rintro ⟨j, hj, e⟩
    rw [List.getD_eq_getElem?_getD, List.getElem?_eq_getElem hj] at e
    simp only [Option.getD_some] at e
    rw [← e]
    exact List.getElem_mem hj

theorem OPTgen.WF_new (cache_size : Nat) : (OPTgen.new cache_size).WF := by
  refine ⟨by simp [OPTgen.new], ?_, ?_⟩
  · intro id t h
    simp [OPTgen.new, mapFind] at h
  · intro c h
    simp [OPTgen.new] at h

theorem OPTgen.TimeStampInc_TimeStamp (g : OPTgen) (a : Nat) :
    (g.TimeStampInc a).1.TimeStamp = g.TimeStamp + 1 := rfl

theorem OPTgen.TimeStampInc_CacheSize (g : OPTgen) (a : Nat) :
    (g.TimeStampInc a).1.CacheSize = g.CacheSize := rfl

theorem OPTgen.TimeStampInc_LastVisitedTime (g : OPTgen) (a : Nat) :
    (g.TimeStampInc a).1.LastVisitedTime = mapSet g.LastVisitedTime a (g.TimeStamp + 1) := rfl

/-- The label of `TimeStampInc` in terms of the loop condition. -/
theorem OPTgen.TimeStampInc_label (g : OPTgen) (a : Nat) :
    (g.TimeStampInc a).2 =
      match mapFind g.LastVisitedTime a with
      | none => Status.FirstAppear
      | some last =>
        if spanSaturated (g.Capacity ++ [0]) g.CacheSize last (g.TimeStamp + 1)
        then Status.Miss else Status.Hit := rfl

/-- The occupancy vector after `TimeStampInc`. -/
theorem OPTgen.TimeStampInc_Capacity (g : OPTgen) (a : Nat) :
    (g.TimeStampInc a).1.Capacity =
      if (g.TimeStampInc a).2 = Status.Hit then
        incSpan (g.Capacity ++ [0]) ((mapFind g.LastVisitedTime a).getD 0) (g.TimeStamp + 1)
      else g.Capacity ++ [0] := rfl

theorem OPTgen.label_Hit_iff (g : OPTgen) (a : Nat) :
    (g.TimeStampInc a).2 = Status.Hit ↔
      ∃ last, mapFind g.LastVisitedTime a = some last ∧
        spanSaturated (g.Capacity ++ [0]) g.CacheSize last (g.TimeStamp + 1) = false := by
  rw [OPTgen.TimeStampInc_label]
  cases h : mapFind g.LastVisitedTime a with
  | none => simp
  | some last =>
    by_cases hs : spanSaturated (g.Capacity ++ [0]) g.CacheSize last (g.TimeStamp + 1) = true
    · simp [hs]
    · simp [hs]

/-- One call of `TimeStampInc` keeps the oracle state well-formed. -/
theorem OPTgen.WF_TimeStampInc (g : OPTgen) (hwf : g.WF) (a : Nat) :
    (g.TimeStampInc a).1.WF := by
  obtain ⟨hlen, hlast, hcap⟩ := hwf
  have hT : 0 ≤ g.TimeStamp + 1 := by
    have : (0 : Int) ≤ (g.Capacity.length : Int) := Int.ofNat_nonneg _
    omega
  refine ⟨?_, ?_, ?_⟩
  · rw [OPTgen.TimeStampInc_Capacity, OPTgen.TimeStampInc_TimeStamp]
    by_cases hH : (g.TimeStampInc a).2 = Status.Hit
    · obtain ⟨last, hl, -⟩ := (OPTgen.label_Hit_iff g a).1 hH
      rw [if_pos hH, hl, Option.getD_some, incSpan_length _ _ _ (hlast a last hl).1]
      simp only [List.length_append, List.length_singleton, Nat.cast_add, Nat.cast_one]
      omega
    · rw [if_neg hH]
      simp only [List.length_append, List.length_singleton, Nat.cast_add, Nat.cast_one]
      omega
  · intro id t h
    rw [OPTgen.TimeStampInc_LastVisitedTime, mapFind_mapSet] at h
    rw [OPTgen.TimeStampInc_TimeStamp]
    by_cases e : a = id
    · rw [if_pos e] at h
      cases h
      exact ⟨hT, le_refl _⟩
    · rw [if_neg e] at h
      have := hlast id t h
      omega
  · intro c hc
    rw [OPTgen.TimeStampInc_CacheSize]
    have hbase : ∀ j, (g.Capacity ++ [0]).getD j 0 ≤ g.CacheSize := by
      intro j
      rw [getD_append_zero]
      by_cases hj : j < g.Capacity.length
      · apply hcap
        rw [List.getD_eq_getElem?_getD, List.getElem?_eq_getElem hj]
        exact List.getElem_mem hj
      · rw [List.getD_eq_getElem?_getD, List.getElem?_eq_none (by omega)]
        exact Nat.zero_le _
    rw [OPTgen.TimeStampInc_Capacity] at hc
    by_cases hH : (g.TimeStampInc a).2 = Status.Hit
    · obtain ⟨last, hl, hs⟩ := (OPTgen.label_Hit_iff g a).1 hH
      rw [if_pos hH, hl, Option.getD_some] at hc
      obtain ⟨j, -, e⟩ := (mem_iff_getD _ c).1 hc
      rw [incSpan_getD _ _ _ (hlast a last hl).1] at e
      by_cases hin : last ≤ (j : Int) ∧ (j : Int) ≤ g.TimeStamp + 1 ∧
          j < (g.Capacity ++ [0]).length
      · rw [if_pos hin] at e
        have hne : (g.Capacity ++ [0]).getD j 0 ≠ g.CacheSize := by
          intro heq
          have : spanSaturated (g.Capacity ++ [0]) g.CacheSize last (g.TimeStamp + 1) = true :=
            (spanSaturated_iff _ _ _ _).2 ⟨(j : Int), hin.1, hin.2.1, by simpa using heq⟩
          rw [hs] at this
          exact Bool.false_ne_true this
        have hle := hbase j
        have hmod := Nat.mod_le ((g.Capacity ++ [0]).getD j 0 + 1) (2 ^ 64)
        omega
      · rw [if_neg hin] at e
        rw [← e]
        exact hbase j
    · rw [if_neg hH] at hc
      obtain ⟨j, -, e⟩ := (mem_iff_getD _ c).1 hc
      rw [← e]
      exact hbase j

theorem OPTgen.feed_append (g : OPTgen) (xs ys : List Nat) :
    g.feed (xs ++ ys) = (g.feed xs).feed ys := by
  simp [OPTgen.feed, List.foldl_append]

theorem OPTgen.feed_cons (g : OPTgen) (x : Nat) (xs : List Nat) :
    g.feed (x :: xs) = (g.TimeStampInc x).1.feed xs := rfl

theorem OPTgen.WF_feed (stream : List Nat) (g : OPTgen) (hwf : g.WF) : (g.feed stream).WF := by
  induction stream generalizing g with
  | nil => exact hwf
  | cons x xs ih =>
    rw [OPTgen.feed_cons]
    exact ih _ (OPTgen.WF_TimeStampInc g hwf x)

theorem OPTgen.feed_CacheSize (stream : List Nat) (g : OPTgen) :
    (g.feed stream).CacheSize = g.CacheSize := by
  induction stream generalizing g with
  | nil => rfl
  | cons x xs ih => rw [OPTgen.feed_cons, ih, OPTgen.TimeStampInc_CacheSize]

/-- The slot appended by `TimeStampInc` holds 1 after a `Hit` and 0 otherwise. -/
theorem OPTgen.TimeStampInc_newSlot (g : OPTgen) (hwf : g.WF) (a : Nat) :
    (g.TimeStampInc a).1.Capacity.getD (g.TimeStamp + 1).toNat 0 =
      if (g.TimeStampInc a).2 = Status.Hit then 1 else 0 := by
  obtain ⟨hlen, hlast, -⟩ := hwf
  have hidx : (g.TimeStamp + 1).toNat = g.Capacity.length := by omega
  have hzero : (g.Capacity ++ [0]).getD g.Capacity.length 0 = 0 := by
    rw [getD_append_zero, List.getD_eq_getElem?_getD, List.getElem?_eq_none (le_refl _)]
    rfl
  rw [OPTgen.TimeStampInc_Capacity, hidx]
  by_cases hH : (g.TimeStampInc a).2 = Status.Hit
  · obtain ⟨last, hl, -⟩ := (OPTgen.label_Hit_iff g a).1 hH
    have hb := hlast a last hl
    rw [if_pos hH, if_pos hH, hl, Option.getD_some, incSpan_getD _ _ _ hb.1, hzero]
    have hin : last ≤ (g.Capacity.length : Int) ∧ (g.Capacity.length : Int) ≤ g.TimeStamp + 1 ∧
        g.Capacity.length < (g.Capacity ++ [0]).length := by
      refine ⟨by omega, by omega, by simp⟩
    rw [if_pos hin]
    rfl
  · rw [if_neg hH, if_neg hH, hzero]

/-- Two consecutive calls of `TimeStampInc` on the same id: the second label. -/
theorem OPTgen.TimeStampInc_twice (g : OPTgen) (hwf : g.WF) (hcs : 1 ≤ g.CacheSize) (a : Nat) :
    ((g.TimeStampInc a).1.TimeStampInc a).2 =
      if g.CacheSize = 1 ∧ (g.TimeStampInc a).2 = Status.Hit then Status.Miss
      else Status.Hit := by
  have hwf1 := OPTgen.WF_TimeStampInc g hwf a
  have hslot := OPTgen.TimeStampInc_newSlot g hwf a
  obtain ⟨hlen, -, -⟩ := hwf
  obtain ⟨hlen1, -, -⟩ := hwf1
  rw [OPTgen.TimeStampInc_TimeStamp] at hlen1
  rw [OPTgen.TimeStampInc_label (g.TimeStampInc a).1 a, OPTgen.TimeStampInc_LastVisitedTime,
    mapFind_mapSet_self, OPTgen.TimeStampInc_TimeStamp, OPTgen.TimeStampInc_CacheSize]
  simp only []
  have hsat : spanSaturated ((g.TimeStampInc a).1.Capacity ++ [0]) g.CacheSize
      (g.TimeStamp + 1) (g.TimeStamp + 1 + 1) = true ↔
      (g.CacheSize = 1 ∧ (g.TimeStampInc a).2 = Status.Hit) := by
    rw [spanSaturated_iff]
    constructor
    · rintro ⟨i, h1, h2, h3⟩
      rw [getD_append_zero] at h3
      by_cases hi : i = g.TimeStamp + 1
      · subst hi
        rw [hslot] at h3
        by_cases hH : (g.TimeStampInc a).2 = Status.Hit
        · rw [if_pos hH] at h3
          exact ⟨h3.symm, hH⟩
        · rw [if_neg hH] at h3
          omega
      · have hi2 : i.toNat = (g.TimeStampInc a).1.Capacity.length := by omega
        rw [hi2, List.getD_eq_getElem?_getD, List.getElem?_eq_none (le_refl _)] at h3
        simp only [Option.getD_none] at h3
        omega
    · rintro ⟨h1, hH⟩
      refine ⟨g.TimeStamp + 1, le_refl _, by omega, ?_⟩
      rw [getD_append_zero, hslot, if_pos hH, h1]
  by_cases hc : g.CacheSize = 1 ∧ (g.TimeStampInc a).2 = Status.Hit
  · rw [if_pos hc, if_pos (hsat.2 hc)]
  · rw [if_neg hc, if_neg (fun h => hc (hsat.1 h))]

theorem OPTgen.labels_getElem? (stream : List Nat) (g : OPTgen) (i : Nat) :
    (g.labels stream)[i]? =
      (stream[i]?).map (fun id => ((g.feed (stream.take i)).TimeStampInc id).2) := by
  induction stream generalizing g i with
  | nil => simp [OPTgen.labels]
  | cons x xs ih =>
    cases i with
    | zero => simp [OPTgen.labels, OPTgen.feed]
    | succ i =>
      simp only [OPTgen.labels, List.getElem?_cons_succ, List.take_succ_cons, OPTgen.feed_cons]
      exact ih _ _

theorem take_succ_of_getElem? (stream : List Nat) (i a : Nat) (h : stream[i]? = some a) :
    stream.take (i + 1) = stream.take i ++ [a] := by
  rw [List.take_succ, h]
  rfl

theorem OPTgen.feed_snoc (g : OPTgen) (xs : List Nat) (a : Nat) :
    g.feed (xs ++ [a]) = ((g.feed xs).TimeStampInc a).1 := by
  rw [OPTgen.feed_append]
  rfl

/-! ## Claims on the oracle -/

/-- C1 (as stated, refuted): with capacity 1 the stream `[7, 7, 7]` accesses
object 7 at positions 1 and 2 with nothing in between, and `TimeStampInc`
labels position 2 as `Miss`, not `Hit`. -/
theorem C1_counterexample :
    (1 : Nat) ≥ 1 ∧ [7, 7, 7][2]? = [7, 7, 7][1]? ∧
      ((OPTgen.new 1).labels [7, 7, 7])[2]? = some Status.Miss ∧
      (OPTgen.new 1).labels [7, 7, 7] = [Status.FirstAppear, Status.Hit, Status.Miss] := by
  decide

/-- C1 (amended): for every capacity `≥ 1`, every stream and every position
`i + 1` at which the same id `a` is accessed as at position `i`, the label of
access `i + 1` is `Hit`, except when the capacity is 1 and access `i` was
itself labelled `Hit`, in which case it is `Miss`.  In particular it is always
`Hit` for capacity `≥ 2`. -/
theorem C1_repeat_access_label (cap : Nat) (hcap : 1 ≤ cap) (stream : List Nat) (i a : Nat)
    (h0 : stream[i]? = some a) (h1 : stream[i + 1]? = some a) :
    ((OPTgen.new cap).labels stream)[i + 1]? =
      some (if cap = 1 ∧ ((OPTgen.new cap).labels stream)[i]? = some Status.Hit
        then Status.Miss else Status.Hit) := by
  rw [OPTgen.labels_getElem?, OPTgen.labels_getElem?, h0, h1,
    take_succ_of_getElem? stream i a h0, OPTgen.feed_snoc]
  simp only [Option.map_some', Option.some.injEq]
  have hwf := OPTgen.WF_feed (stream.take i) _ (OPTgen.WF_new cap)
  have hcs : ((OPTgen.new cap).feed (stream.take i)).CacheSize = cap := by
    rw [OPTgen.feed_CacheSize]
    rfl
  rw [OPTgen.TimeStampInc_twice _ hwf (by omega) a, hcs]

/-- C1 (amended), instance: capacity 2 and the stream `[7, 7]` of the spec. -/
theorem C1_repeat_access_label_witness :
    ((OPTgen.new 2).labels [7, 7])[0 + 1]? =
      some (if 2 = 1 ∧ ((OPTgen.new 2).labels [7, 7])[0]? = some Status.Hit
        then Status.Miss else Status.Hit) :=
  C1_repeat_access_label 2 (by decide) [7, 7] 0 7 (by decide) (by decide)

/-- C2 (as stated, refuted): with capacity 1 the stream `[7, 8, 7]` is
labelled `[FirstAppear, FirstAppear, Hit]`; the third label is not `Miss`. -/
theorem C2_counterexample :
    (7 : Nat) ≠ 8 ∧
      (OPTgen.new 1).labels [7, 8, 7] =
        [Status.FirstAppear, Status.FirstAppear, Status.Hit] ∧
      (OPTgen.new 1).labels [7, 8, 7] ≠
        [Status.FirstAppear, Status.FirstAppear, Status.Miss] := by
  decide

/-- C2 (amended): with capacity 1 and any two distinct ids `A` and `B`, the
stream `[A, B, A]` fed to a fresh oracle is labelled
`[FirstAppear, FirstAppear, Hit]`. -/
theorem C2_labels_ABA (A B : Nat) (hAB : A ≠ B) :
    (OPTgen.new 1).labels [A, B, A] =
      [Status.FirstAppear, Status.FirstAppear, Status.Hit] := by
  have hBA : ¬ B = A := fun h => hAB h.symm
  have hsat : spanSaturated [0, 0, 0] 1 0 2 = false := by decide
  simp [OPTgen.labels, OPTgen.TimeStampInc, OPTgen.new, mapFind, mapSet, hAB, hBA, hsat]

/-- C2 (amended), instance: `A = 7`, `B = 8`. -/
theorem C2_labels_ABA_witness :
    (7 : Nat) ≠ 8 ∧ (OPTgen.new 1).labels [7, 8, 7] =
      [Status.FirstAppear, Status.FirstAppear, Status.Hit] :=
  ⟨by decide, C2_labels_ABA 7 8 (by decide)⟩

/-- C4: for every capacity and every request stream, after the calls of
`TimeStampInc` along the stream every occupancy slot is at most `CacheSize`. -/
theorem C4_occupancy_le_CacheSize (cache_size : Nat) (stream : List Nat) (c : Nat)
    (hc : c ∈ ((OPTgen.new cache_size).feed stream).Capacity) :
    c ≤ ((OPTgen.new cache_size).feed stream).CacheSize ∧
      ((OPTgen.new cache_size).feed stream).CacheSize = cache_size :=
  ⟨(OPTgen.WF_feed stream _ (OPTgen.WF_new cache_size)).2.2 c hc,
    by rw [OPTgen.feed_CacheSize]; rfl⟩

/-- C4, instance: capacity 1 and the stream `[7, 7, 7]`, whose first two slots
are full. -/
theorem C4_occupancy_le_CacheSize_witness :
    ((OPTgen.new 1).feed [7, 7, 7]).Capacity = [1, 1, 0] ∧
      1 ≤ ((OPTgen.new 1).feed [7, 7, 7]).CacheSize ∧
      ((OPTgen.new 1).feed [7, 7, 7]).CacheSize = 1 :=
  ⟨by decide, C4_occupancy_le_CacheSize 1 [7, 7, 7] 1 (by decide)⟩

/-! ## The recency register -/

theorem PCHR.insertAll_snoc (r : PCHR) (ids : List Nat) (x : Nat) :
    r.insertAll (ids ++ [x]) = (r.insertAll ids).Insert x := by
  simp [PCHR.insertAll, List.foldl_append]

theorem PCHR.Insert_elements (r : PCHR) (x : Nat) :
    (r.Insert x).elements =
      if (x :: r.elements.erase x).length > PCHR.PCHRSize
      then (x :: r.elements.erase x).dropLast else x :: r.elements.erase x := by
  unfold PCHR.Insert
  simp only []
  split <;> rfl

theorem PCHR.Insert_length_le (r : PCHR) (x : Nat) (h : r.elements.length ≤ PCHR.PCHRSize) :
    (r.Insert x).elements.length ≤ PCHR.PCHRSize := by
  have he : (r.elements.erase x).length ≤ r.elements.length :=
    (List.erase_sublist x r.elements).length_le
  rw [PCHR.Insert_elements]
  split
  · simp only [List.length_dropLast, List.length_cons]
    omega
  · omega

theorem PCHR.Insert_nodup (r : PCHR) (x : Nat) (h : r.elements.Nodup) :
    (r.Insert x).elements.Nodup := by
  have hn : (x :: r.elements.erase x).Nodup := by
    rw [List.nodup_cons]
    refine ⟨?_, h.erase x⟩
    intro hx
    exact ((h.mem_erase_iff).1 hx).1 rfl
  rw [PCHR.Insert_elements]
  split
  · exact hn.sublist (List.dropLast_sublist _)
  · exact hn

theorem PCHR.Insert_head (r : PCHR) (x : Nat) : (r.Insert x).elements.head? = some x := by
  rw [PCHR.Insert_elements]
  split
  · rename_i hlen
    cases he : r.elements.erase x with
    | nil =>
      rw [he] at hlen
      simp [PCHR.PCHRSize] at hlen
    | cons y l => simp [List.dropLast]
  · rfl

theorem PCHR.Insert_of_not_mem (r : PCHR) (x : Nat) (hx : x ∉ r.elements)
    (h : r.elements.length ≤ PCHR.PCHRSize) :
    (r.Insert x).elements = (x :: r.elements).take PCHR.PCHRSize := by
  rw [PCHR.Insert_elements, List.erase_of_not_mem hx]
  simp only [PCHR.PCHRSize] at h ⊢
  split
  · rename_i hlen
    rw [List.dropLast_eq_take]
    simp only [List.length_cons] at hlen ⊢
    have h5 : r.elements.length + 1 - 1 = 5 := by omega
    rw [h5]
  · rename_i hlen
    simp only [List.length_cons] at hlen
    rw [List.take_of_length_le (by simp only [List.length_cons]; omega)]

theorem PCHR.insertAll_invariant (ids : List Nat) :
    (PCHR.new.insertAll ids).elements.length ≤ PCHR.PCHRSize ∧
      (PCHR.new.insertAll ids).elements.Nodup := by
  induction ids using List.reverseRecOn with
  | nil => exact ⟨by simp [PCHR.insertAll, PCHR.new], by simp [PCHR.insertAll, PCHR.new]⟩
  | append_singleton ids x ih =>
    rw [PCHR.insertAll_snoc]
    exact ⟨PCHR.Insert_length_le _ x ih.1, PCHR.Insert_nodup _ x ih.2⟩

theorem PCHR.insertAll_distinct (ids : List Nat) (h : ids.Nodup) :
    (PCHR.new.insertAll ids).elements = ids.reverse.take PCHR.PCHRSize := by
  induction ids using List.reverseRecOn with
  | nil => simp [PCHR.insertAll, PCHR.new]
  | append_singleton ids x ih =>
    have hn : ids.Nodup := (List.nodup_append.1 h).1
    have hx : x ∉ ids := by
      intro hmem
      exact (List.nodup_append.1 h).2.2 hmem (List.mem_singleton_self x)
    have ih1 := ih hn
    have hx1 : x ∉ (PCHR.new.insertAll ids).elements := by
      rw [ih1]
      intro hmem
      exact hx (List.mem_reverse.1 (List.mem_of_mem_take hmem))
    rw [PCHR.insertAll_snoc, PCHR.Insert_of_not_mem _ x hx1 (PCHR.insertAll_invariant ids).1,
      ih1, List.reverse_append]
    simp only [List.reverse_cons, List.reverse_nil, List.nil_append, List.singleton_append,
      PCHR.PCHRSize, List.take_succ_cons, List.cons.injEq, true_and]
    rw [List.take_take]
    rfl

/-- C5: starting from the empty register, after any sequence of `PCHR::Insert`
calls the register holds at most `PCHRSize = 5` ids, holds no id twice, and its
first element is the id inserted last (it is empty when nothing was
inserted). -/
theorem C5_register_invariant (ids : List Nat) :
    (PCHR.new.insertAll ids).elements.length ≤ PCHR.PCHRSize ∧ PCHR.PCHRSize = 5 ∧
      (PCHR.new.insertAll ids).elements.Nodup ∧
      (PCHR.new.insertAll ids).elements.head? = ids.getLast? := by
  refine ⟨(PCHR.insertAll_invariant ids).1, rfl, (PCHR.insertAll_invariant ids).2, ?_⟩
  induction ids using List.reverseRecOn with
  | nil => simp [PCHR.insertAll, PCHR.new]
  | append_singleton ids x _ =>
    rw [PCHR.insertAll_snoc, PCHR.Insert_head, List.getLast?_append]
    rfl

/-- C6: for every list of pairwise distinct ids inserted in order into an
empty register, the register afterwards is exactly the last
`min n PCHRSize` inserted ids, most recent first; when `PCHRSize + 1` ids are
inserted exactly `PCHRSize` entries remain, namely all but the first-inserted
id, which is dropped. -/
theorem C6_register_distinct (ids : List Nat) (h : ids.Nodup) :
    (PCHR.new.insertAll ids).elements = ids.reverse.take (min ids.length PCHR.PCHRSize) ∧
      (ids.length = PCHR.PCHRSize + 1 →
        (PCHR.new.insertAll ids).elements.length = PCHR.PCHRSize ∧
        (PCHR.new.insertAll ids).elements = ids.tail.reverse ∧
        ∀ x, ids.head? = some x → x ∉ (PCHR.new.insertAll ids).elements) := by
  have hmain := PCHR.insertAll_distinct ids h
  have htake : ids.reverse.take (min ids.length PCHR.PCHRSize) =
      ids.reverse.take PCHR.PCHRSize := by
    by_cases hl : ids.length ≤ PCHR.PCHRSize
    · rw [Nat.min_eq_left hl, List.take_of_length_le (by simp),
        List.take_of_length_le (by simpa using hl)]
    · rw [Nat.min_eq_right (by omega)]
  refine ⟨by rw [hmain, htake], ?_⟩
  intro hlen
  have htail : (PCHR.new.insertAll ids).elements = ids.tail.reverse := by
    rw [hmain]
    cases ids with
    | nil => simp [PCHR.PCHRSize] at hlen
    | cons y l =>
      simp only [List.length_cons, PCHR.PCHRSize] at hlen
      simp only [List.reverse_cons, List.tail_cons, PCHR.PCHRSize]
      rw [List.take_append_of_le_length (by simp; omega),
        List.take_of_length_le (by simp; omega)]
  refine ⟨?_, htail, ?_⟩
  · rw [htail]
    simp only [List.length_reverse, List.length_tail]
    omega
  · intro x hx
    rw [htail]
    cases ids with
    | nil => simp at hx
    | cons y l =>
      simp only [List.head?_cons, Option.some.injEq] at hx
      subst hx
      simp only [List.tail_cons, List.mem_reverse]
      exact (List.nodup_cons.1 h).1

/-- C6, instance: six distinct ids; id 1, inserted first, is dropped. -/
theorem C6_register_distinct_witness :
    (PCHR.new.insertAll [1, 2, 3, 4, 5, 6]).elements = [6, 5, 4, 3, 2] ∧
      ((PCHR.new.insertAll [1, 2, 3, 4, 5, 6]).elements =
        [1, 2, 3, 4, 5, 6].reverse.take (min [1, 2, 3, 4, 5, 6].length PCHR.PCHRSize) ∧
      ([1, 2, 3, 4, 5, 6].length = PCHR.PCHRSize + 1 →
        (PCHR.new.insertAll [1, 2, 3, 4, 5, 6]).elements.length = PCHR.PCHRSize ∧
        (PCHR.new.insertAll [1, 2, 3, 4, 5, 6]).elements = [1, 2, 3, 4, 5, 6].tail.reverse ∧
        ∀ x, [1, 2, 3, 4, 5, 6].head? = some x →
          x ∉ (PCHR.new.insertAll [1, 2, 3, 4, 5, 6]).elements)) :=
  ⟨by decide, C6_register_distinct [1, 2, 3, 4, 5, 6] (by decide)⟩

/-! ## The eviction order and the set operations -/

theorem CacheObject.lt_iff (a b : CacheObject) :
    a.lt b = true ↔
      a.CacheFriend < b.CacheFriend ∨
        (a.CacheFriend = b.CacheFriend ∧
          (a.LastVisitedTime < b.LastVisitedTime ∨
            (a.LastVisitedTime = b.LastVisitedTime ∧ a.obj_id < b.obj_id))) := by
  unfold CacheObject.lt
  split_ifs with h1 h2
  · simp only [decide_eq_true_eq]
    constructor
    · intro h
      exact Or.inl h
    · rintro (h | ⟨h, -⟩)
      · exact h
      · exact absurd h h1
  · have e : a.CacheFriend = b.CacheFriend := not_not.1 h1
    simp only [decide_eq_true_eq]
    constructor
    · intro h
      exact Or.inr ⟨e, Or.inl h⟩
    · rintro (h | ⟨-, h | ⟨h, -⟩⟩)
      · omega
      · exact h
      · exact absurd h h2
  · have e : a.CacheFriend = b.CacheFriend := not_not.1 h1
    have e2 : a.LastVisitedTime = b.LastVisitedTime := not_not.1 h2
    simp only [decide_eq_true_eq]
    constructor
    · intro h
      exact Or.inr ⟨e, Or.inr ⟨e2, h⟩⟩
    · rintro (h | ⟨-, h | ⟨-, h⟩⟩)
      · omega
      · omega
      · exact h

theorem CacheObject.lt_irrefl (a : CacheObject) : a.lt a = false := by
  cases h : a.lt a with
  | false => rfl
  | true =>
    rw [CacheObject.lt_iff] at h
    omega

theorem CacheObject.lt_trans (a b c : CacheObject) (h1 : a.lt b = true) (h2 : b.lt c = true) :
    a.lt c = true := by
  rw [CacheObject.lt_iff] at h1 h2 ⊢
  omega

theorem CacheObject.eq_of_not_lt (a b : CacheObject) (h1 : a.lt b = false)
    (h2 : b.lt a = false) : a = b := by
  have h1 : ¬ a.lt b = true := by simp [h1]
  have h2 : ¬ b.lt a = true := by simp [h2]
  rw [CacheObject.lt_iff] at h1 h2
  obtain ⟨a1, a2, a3⟩ := a
  obtain ⟨b1, b2, b3⟩ := b
  simp only [CacheObject.mk.injEq] at *
  omega

theorem CacheObject.ne_of_lt (a b : CacheObject) (h : a.lt b = true) : a ≠ b := by
  rintro rfl
  rw [CacheObject.lt_irrefl] at h
  exact Bool.false_ne_true h

theorem sorted_nodup (Cache : List CacheObject)
    (h : Cache.Pairwise (fun a b => a.lt b = true)) : Cache.Nodup :=
  h.imp (fun {a b} hab => CacheObject.ne_of_lt a b hab)

theorem mem_setInsert (x y : CacheObject) (Cache : List CacheObject) :
    y ∈ setInsert x Cache ↔ y = x ∨ y ∈ Cache := by
  induction Cache with
  | nil => simp [setInsert]
  | cons z zs ih =>
    unfold setInsert
    split_ifs with h1 h2
    · simp
    · simp only [List.mem_cons, ih]
      tauto
    · have e : x = z := CacheObject.eq_of_not_lt x z (by simpa using h1) (by simpa using h2)
      subst e
      simp

theorem sorted_setInsert (x : CacheObject) (Cache : List CacheObject)
    (h : Cache.Pairwise (fun a b => a.lt b = true)) :
    (setInsert x Cache).Pairwise (fun a b => a.lt b = true) := by
  induction Cache with
  | nil => simp [setInsert]
  | cons z zs ih =>
    rw [List.pairwise_cons] at h
    unfold setInsert
    split_ifs with h1 h2
    · rw [List.pairwise_cons]
      refine ⟨?_, List.pairwise_cons.2 h⟩
      intro b hb
      rcases List.mem_cons.1 hb with rfl | hb
      · exact h1
      · exact CacheObject.lt_trans _ _ _ h1 (h.1 b hb)
    · rw [List.pairwise_cons]
      refine ⟨?_, ih h.2⟩
      intro b hb
      rcases (mem_setInsert x b zs).1 hb with rfl | hb
      · exact h2
      · exact h.1 b hb
    · exact List.pairwise_cons.2 h

theorem length_setInsert (x : CacheObject) (Cache : List CacheObject) (hx : x ∉ Cache) :
    (setInsert x Cache).length = Cache.length + 1 := by
  induction Cache with
  | nil => simp [setInsert]
  | cons z zs ih =>
    have hz : x ≠ z := fun e => hx (by simp [e])
    have hzs : x ∉ zs := fun e => hx (by simp [e])
    unfold setInsert
    split_ifs with h1 h2
    · simp
    · simp [ih hzs]
    · exact absurd (CacheObject.eq_of_not_lt x z (by simpa using h1) (by simpa using h2)) hz

theorem setFind_of_mem (x : CacheObject) (Cache : List CacheObject) (hx : x ∈ Cache) :
    setFind Cache x = some x := by
  unfold setFind
  induction Cache with
  | nil => simp at hx
  | cons z zs ih =>
    rw [List.find?_cons]
    by_cases e : x = z
    · subst e
      simp [CacheObject.lt_irrefl]
    · have hzs : x ∈ zs := by
        rcases List.mem_cons.1 hx with h | h
        · exact absurd h e
        · exact h
      have hp : (!x.lt z && !z.lt x) = false := by
        cases h1 : x.lt z with
        | true => simp
        | false =>
          cases h2 : z.lt x with
          | true => simp
          | false => exact absurd (CacheObject.eq_of_not_lt x z h1 h2) e
      rw [hp]
      exact ih hzs

/-- The head of a strictly ascending list is below every other element. -/
theorem sorted_head_min (it : CacheObject) (rest : List CacheObject)
    (h : (it :: rest).Pairwise (fun a b => a.lt b = true)) (c : CacheObject)
    (hc : c ∈ it :: rest) : c = it ∨ it.lt c = true := by
  rcases List.mem_cons.1 hc with e | hm
  · exact Or.inl e
  · exact Or.inr ((List.pairwise_cons.1 h).1 c hm)

/-! ## More lemmas on finite maps -/

theorem mem_keys_of_mem {V : Type} (m : List (Nat × V)) (p : Nat × V) (hp : p ∈ m) :
    p.1 ∈ m.map Prod.fst :=
  List.mem_map.2 ⟨p, hp, rfl⟩

theorem mem_mapSet {V : Type} (m : List (Nat × V)) (hn : (m.map Prod.fst).Nodup) (x : Nat)
    (v : V) (p : Nat × V) (hp : p ∈ mapSet m x v) : p = (x, v) ∨ (p ∈ m ∧ p.1 ≠ x) := by
  induction m with
  | nil =>
    simp only [mapSet, List.mem_singleton] at hp
    exact Or.inl hp
  | cons q m ih =>
    obtain ⟨k, w⟩ := q
    simp only [List.map_cons, List.nodup_cons] at hn
    unfold mapSet at hp
    split_ifs at hp with hk
    · subst hk
      rcases List.mem_cons.1 hp with e | hm
      · exact Or.inl e
      · refine Or.inr ⟨by simp [hm], ?_⟩
        intro e
        exact hn.1 (e ▸ mem_keys_of_mem m p hm)
    · rcases List.mem_cons.1 hp with e | hm
      · subst e
        exact Or.inr ⟨by simp, hk⟩
      · rcases ih hn.2 hm with e | ⟨h1, h2⟩
        · exact Or.inl e
        · exact Or.inr ⟨by simp [h1], h2⟩

theorem mapFind_mem {V : Type} (m : List (Nat × V)) (k : Nat) (v : V)
    (h : mapFind m k = some v) : (k, v) ∈ m := by
  induction m with
  | nil => simp [mapFind] at h
  | cons q m ih =>
    obtain ⟨k1, w⟩ := q
    unfold mapFind at h
    split_ifs at h with hk
    · cases h
      subst hk
      simp
    · simp [ih h]

theorem mem_keys_mapSet {V : Type} (m : List (Nat × V)) (x : Nat) (v : V) (k : Nat) :
    k ∈ (mapSet m x v).map Prod.fst ↔ k = x ∨ k ∈ m.map Prod.fst := by
  induction m with
  | nil => simp [mapSet]
  | cons q m ih =>
    obtain ⟨k1, w⟩ := q
    unfold mapSet
    split_ifs with hk
    · subst hk
      simp only [List.map_cons, List.mem_cons]
      tauto
    · simp only [List.map_cons, List.mem_cons, ih]
      tauto

theorem nodup_keys_mapSet {V : Type} (m : List (Nat × V)) (hn : (m.map Prod.fst).Nodup)
    (x : Nat) (v : V) : ((mapSet m x v).map Prod.fst).Nodup := by
  induction m with
  | nil => simp [mapSet]
  | cons q m ih =>
    obtain ⟨k1, w⟩ := q
    simp only [List.map_cons, List.nodup_cons] at hn
    unfold mapSet
    split_ifs with hk
    · simp only [List.map_cons, List.nodup_cons]
      exact hn
    · simp only [List.map_cons, List.nodup_cons, mem_keys_mapSet]
      refine ⟨?_, ih hn.2⟩
      rintro (e | e)
      · exact hk e
      · exact hn.1 e

theorem mapSet_mapSet {V : Type} (m : List (Nat × V)) (x : Nat) (v w : V) :
    mapSet (mapSet m x v) x w = mapSet m x w := by
  induction m with
  | nil => simp [mapSet]
  | cons q m ih =>
    obtain ⟨k1, u⟩ := q
    by_cases hk : k1 = x
    · simp [mapSet, hk]
    · simp [mapSet, hk, ih]

/-- How `mapSet` changes the number of records flagged `IsInCache`. -/
theorem cachedCount_mapSet (m : List (Nat × SVMObject)) (x : Nat) (v : SVMObject) :
    cachedCount (mapSet m x v) +
        (if (mapFind m x).map (fun r => r.IsInCache) = some true then 1 else 0) =
      cachedCount m + (if v.IsInCache = true then 1 else 0) := by
  induction m with
  | nil => simp [mapSet, mapFind, cachedCount, List.countP_cons]
  | cons q m ih =>
    obtain ⟨k1, u⟩ := q
    unfold cachedCount at ih ⊢
    by_cases hk : k1 = x
    · simp only [mapSet, mapFind, hk, if_true, List.countP_cons, Option.map_some',
        Option.some.injEq]
      omega
    · simp only [mapSet, mapFind, hk, if_false, List.countP_cons]
      omega

/-! ## Consistency is preserved by the steps of `Insert` and `Delete` -/

theorem ConsistentCO.rec_of_mem {Cache : List CacheObject} {ObjInfo : List (Nat × SVMObject)}
    (h : ConsistentCO Cache ObjInfo) (c : CacheObject) (hc : c ∈ Cache) :
    ∃ rec, mapFind ObjInfo c.obj_id = some rec ∧ rec.IsInCache = true ∧
      tripleOf c.obj_id rec = c := by
  have h3 := h.2.2.1 c hc
  cases hf : mapFind ObjInfo c.obj_id with
  | none => simp [hf] at h3
  | some rec =>
    rw [hf] at h3
    simp only [Option.map_some', Option.some.injEq, Prod.mk.injEq] at h3
    exact ⟨rec, rfl, h3.1, h3.2⟩

theorem ConsistentCO.mem_of_cached {Cache : List CacheObject}
    {ObjInfo : List (Nat × SVMObject)} (h : ConsistentCO Cache ObjInfo) (id : Nat)
    (rec : SVMObject) (hf : mapFind ObjInfo id = some rec) (hc : rec.IsInCache = true) :
    tripleOf id rec ∈ Cache :=
  h.2.2.2 (id, rec) (mapFind_mem ObjInfo id rec hf) hc

/-- A triple of the set whose object id is `id` is the triple of `id`'s record. -/
theorem ConsistentCO.eq_of_obj_id {Cache : List CacheObject}
    {ObjInfo : List (Nat × SVMObject)} (h : ConsistentCO Cache ObjInfo) (c : CacheObject)
    (hc : c ∈ Cache) (rec : SVMObject) (hf : mapFind ObjInfo c.obj_id = some rec) :
    rec.IsInCache = true ∧ c = tripleOf c.obj_id rec := by
  obtain ⟨rec1, h1, h2, h3⟩ := h.rec_of_mem c hc
  rw [hf] at h1
  cases h1
  exact ⟨h2, h3.symm⟩

/-- Rewriting a record without touching its flag, time and priority. -/
theorem ConsistentCO.touch {Cache : List CacheObject} {ObjInfo : List (Nat × SVMObject)}
    (h : ConsistentCO Cache ObjInfo) (id : Nat) (rec rec1 : SVMObject)
    (hf : mapFind ObjInfo id = some rec) (e1 : rec1.IsInCache = rec.IsInCache)
    (e2 : rec1.LastVisitedTime = rec.LastVisitedTime)
    (e3 : rec1.CacheFriend = rec.CacheFriend) :
    ConsistentCO Cache (mapSet ObjInfo id rec1) ∧
      cachedCount (mapSet ObjInfo id rec1) = cachedCount ObjInfo := by
  have et : tripleOf id rec1 = tripleOf id rec := by simp [tripleOf, e2, e3]
  refine ⟨⟨h.1, nodup_keys_mapSet _ h.2.1 _ _, ?_, ?_⟩, ?_⟩
  · intro c hc
    rw [mapFind_mapSet]
    by_cases e : id = c.obj_id
    · subst e
      obtain ⟨h2, h3⟩ := h.eq_of_obj_id c hc rec hf
      simp only [if_true, Option.map_some', Option.some.injEq, Prod.mk.injEq]
      exact ⟨by rw [e1, h2], by rw [et, ← h3]⟩
    · rw [if_neg e]
      exact h.2.2.1 c hc
  · intro p hp hpc
    rcases mem_mapSet _ h.2.1 _ _ p hp with e | ⟨hm, -⟩
    · subst e
      simp only at hpc ⊢
      rw [et]
      exact h.mem_of_cached id rec hf (by rw [← e1, hpc])
    · exact h.2.2.2 p hm hpc
  · have hc := cachedCount_mapSet ObjInfo id rec1
    rw [hf, e1] at hc
    simp only [Option.map_some', Option.some.injEq] at hc
    omega

/-- Removing a triple from the set and clearing the flag of its record. -/
theorem ConsistentCO.evict {Cache : List CacheObject} {ObjInfo : List (Nat × SVMObject)}
    (h : ConsistentCO Cache ObjInfo) (c : CacheObject) (hc : c ∈ Cache) (rec : SVMObject)
    (hf : mapFind ObjInfo c.obj_id = some rec) :
    ConsistentCO (Cache.erase c) (mapSet ObjInfo c.obj_id { rec with IsInCache := false }) ∧
      cachedCount (mapSet ObjInfo c.obj_id { rec with IsInCache := false }) + 1 =
        cachedCount ObjInfo ∧
      (Cache.erase c).length + 1 = Cache.length := by
  have hnd := sorted_nodup Cache h.1
  obtain ⟨hflag, htr⟩ := h.eq_of_obj_id c hc rec hf
  refine ⟨⟨h.1.sublist (List.erase_sublist c Cache), nodup_keys_mapSet _ h.2.1 _ _, ?_, ?_⟩,
    ?_, ?_⟩
  · intro d hd
    obtain ⟨hne, hdm⟩ := (hnd.mem_erase_iff).1 hd
    have hid : c.obj_id ≠ d.obj_id := by
      intro e
      apply hne
      have := (h.eq_of_obj_id d hdm rec (e ▸ hf)).2
      rw [this, ← e, ← htr]
    rw [mapFind_mapSet, if_neg hid]
    exact h.2.2.1 d hdm
  · intro p hp hpc
    rcases mem_mapSet _ h.2.1 _ _ p hp with e | ⟨hm, hk⟩
    · subst e
      simp at hpc
    · apply (hnd.mem_erase_iff).2
      refine ⟨?_, h.2.2.2 p hm hpc⟩
      intro e
      apply hk
      rw [← e]
      rfl
  · have hcnt := cachedCount_mapSet ObjInfo c.obj_id { rec with IsInCache := false }
    rw [hf] at hcnt
    simp only [Option.map_some', Option.some.injEq, hflag, if_true] at hcnt
    simp only [Bool.false_eq_true, if_false] at hcnt
    omega
  · rw [List.length_erase_of_mem hc]
    have : 0 < Cache.length := List.length_pos_of_mem hc
    omega

/-- No triple of the set carries the id of an object that is not flagged. -/
theorem ConsistentCO.not_mem_of_not_cached {Cache : List CacheObject}
    {ObjInfo : List (Nat × SVMObject)} (h : ConsistentCO Cache ObjInfo) (id : Nat)
    (hnc : (mapFind ObjInfo id).map (fun r => r.IsInCache) ≠ some true) (c : CacheObject)
    (hc : c ∈ Cache) : c.obj_id ≠ id := by
  intro e
  obtain ⟨rec, h1, h2, -⟩ := h.rec_of_mem c hc
  apply hnc
  rw [← e, h1]
  simp [h2]

/-- Inserting the triple of an object that is not flagged and writing its
record with the flag set. -/
theorem ConsistentCO.install {Cache : List CacheObject} {ObjInfo : List (Nat × SVMObject)}
    (h : ConsistentCO Cache ObjInfo) (id : Nat)
    (hnc : (mapFind ObjInfo id).map (fun r => r.IsInCache) ≠ some true) (rec1 : SVMObject)
    (hflag : rec1.IsInCache = true) :
    ConsistentCO (setInsert (tripleOf id rec1) Cache) (mapSet ObjInfo id rec1) ∧
      cachedCount (mapSet ObjInfo id rec1) = cachedCount ObjInfo + 1 ∧
      (setInsert (tripleOf id rec1) Cache).length = Cache.length + 1 := by
  have hfresh : tripleOf id rec1 ∉ Cache := by
    intro hm
    exact h.not_mem_of_not_cached id hnc _ hm rfl
  refine ⟨⟨sorted_setInsert _ _ h.1, nodup_keys_mapSet _ h.2.1 _ _, ?_, ?_⟩, ?_,
    length_setInsert _ _ hfresh⟩
  · intro c hc
    rcases (mem_setInsert _ c Cache).1 hc with e | hm
    · subst e
      simp only [tripleOf, mapFind_mapSet_self, Option.map_some', hflag]
    · have hid : id ≠ c.obj_id := fun e => h.not_mem_of_not_cached id hnc c hm e.symm
      rw [mapFind_mapSet, if_neg hid]
      exact h.2.2.1 c hm
  · intro p hp hpc
    apply (mem_setInsert _ _ Cache).2
    rcases mem_mapSet _ h.2.1 _ _ p hp with e | ⟨hm, -⟩
    · subst e
      exact Or.inl rfl
    · exact Or.inr (h.2.2.2 p hm hpc)
  · have hcnt := cachedCount_mapSet ObjInfo id rec1
    rw [if_neg hnc, if_pos hflag] at hcnt
    omega

/-! ## `Delete` and `Insert` on consistent states -/

/-- On a consistent state with a non-empty set, `Delete` succeeds: it removes
the head of the set and clears the flag of the head's record. -/
theorem SVMScheduler.Delete_eq (s : SVMScheduler) (h : s.Consistent) (it : CacheObject)
    (rest : List CacheObject) (hC : s.Cache = it :: rest) :
    ∃ rec, mapFind s.ObjInfo it.obj_id = some rec ∧ rec.IsInCache = true ∧
      tripleOf it.obj_id rec = it ∧
      s.Delete = some { s with
        ObjInfo := mapSet s.ObjInfo it.obj_id { rec with IsInCache := false }
        Cache := rest } := by
  have hm : it ∈ s.Cache := by simp [hC]
  obtain ⟨rec, h1, h2, h3⟩ := ConsistentCO.rec_of_mem h it hm
  refine ⟨rec, h1, h2, h3, ?_⟩
  unfold SVMScheduler.Delete
  rw [hC]
  simp only [h1]

theorem SVMScheduler.Delete_Inv (s : SVMScheduler) (h : s.Consistent)
    (hcnt : cachedCount s.ObjInfo = s.Cache.length) (hne : s.Cache ≠ []) :
    ∃ s1, s.Delete = some s1 ∧ s1.Consistent ∧ cachedCount s1.ObjInfo = s1.Cache.length ∧
      s1.Cache.length + 1 = s.Cache.length ∧ s1.cache_size = s.cache_size ∧
      s1.Gen = s.Gen ∧ s1.PCRegister = s.PCRegister ∧
      ∀ id, (mapFind s.ObjInfo id).map (fun r => r.IsInCache) ≠ some true →
        (mapFind s1.ObjInfo id).map (fun r => r.IsInCache) ≠ some true := by
  cases hC : s.Cache with
  | nil => exact absurd hC hne
  | cons it rest =>
    obtain ⟨rec, h1, -, -, h4⟩ := s.Delete_eq h it rest hC
    have hm : it ∈ s.Cache := by simp [hC]
    obtain ⟨e1, e2, e3⟩ := ConsistentCO.evict h it hm rec h1
    have herase : s.Cache.erase it = rest := by
      rw [hC]
      exact List.erase_cons_head it rest
    rw [herase] at e1 e3
    refine ⟨_, h4, e1, ?_, ?_, rfl, rfl, rfl, ?_⟩
    · simp only
      rw [hC] at hcnt e3
      rw [hcnt] at e2
      simp only [List.length_cons] at e2 e3 ⊢
      omega
    · simp only [List.length_cons]
    · intro id hid
      simp only [mapFind_mapSet]
      by_cases e : it.obj_id = id
      · rw [if_pos e]
        simp
      · rw [if_neg e]
        exact hid

theorem SVMScheduler.InsertNew_Inv (s : SVMScheduler) (h : s.Inv) (hcs : 1 ≤ s.cache_size)
    (id t : Nat) (cf : Int)
    (hnc : (mapFind s.ObjInfo id).map (fun r => r.IsInCache) ≠ some true) :
    ∃ s1, s.InsertNew id t cf = some s1 ∧ s1.Inv ∧ s1.cache_size = s.cache_size ∧
      s1.Gen = s.Gen ∧ s1.PCRegister = s.PCRegister := by
  obtain ⟨hcons, hcnt, hle⟩ := h
  have hroom : ∃ s0, (if s.Cache.length = s.cache_size then s.Delete else some s) = some s0 ∧
      s0.Consistent ∧ cachedCount s0.ObjInfo = s0.Cache.length ∧
      s0.Cache.length + 1 ≤ s.cache_size ∧ s0.cache_size = s.cache_size ∧
      s0.Gen = s.Gen ∧ s0.PCRegister = s.PCRegister ∧
      (mapFind s0.ObjInfo id).map (fun r => r.IsInCache) ≠ some true := by
    by_cases hfull : s.Cache.length = s.cache_size
    · have hne : s.Cache ≠ [] := by
        intro e
        rw [e] at hfull
        simp only [List.length_nil] at hfull
        omega
      obtain ⟨s0, d1, d2, d3, d4, d5, d6, d7, d8⟩ := s.Delete_Inv hcons hcnt hne
      rw [if_pos hfull]
      exact ⟨s0, d1, d2, d3, by omega, d5, d6, d7, d8 id hnc⟩
    · rw [if_neg hfull]
      exact ⟨s, rfl, hcons, hcnt, by omega, rfl, rfl, rfl, hnc⟩
  obtain ⟨s0, r1, r2, r3, r4, r5, r6, r7, r8⟩ := hroom
  unfold SVMScheduler.InsertNew
  rw [r1]
  simp only [Option.some_bind]
  cases hf : mapFind s0.ObjInfo id with
  | some rec =>
    simp only
    obtain ⟨i1, i2, i3⟩ := ConsistentCO.install r2 id r8
      { rec with CacheFriend := cf, LastVisitedTime := t, IsInCache := true } rfl
    refine ⟨_, rfl, ⟨i1, ?_, ?_⟩, r5, r6, r7⟩
    · simp only
      rw [i2, r3]
      exact i3.symm
    · simp only
      have := i3
      simp only [tripleOf] at this
      omega
  | none =>
    simp only
    obtain ⟨i1, i2, i3⟩ := ConsistentCO.install r2 id r8
      { IsInCache := true, obj_id := id, LastVisitedTime := t, CacheFriend := cf,
        weights := [] } rfl
    refine ⟨_, rfl, ⟨i1, ?_, ?_⟩, r5, r6, r7⟩
    · simp only
      rw [i2, r3]
      exact i3.symm
    · simp only
      have := i3
      simp only [tripleOf] at this
      omega

theorem SVMScheduler.Insert_Inv (s : SVMScheduler) (h : s.Inv) (hcs : 1 ≤ s.cache_size)
    (id t : Nat) (cf : Int) :
    ∃ s1, s.Insert id t cf = some s1 ∧ s1.Inv ∧ s1.cache_size = s.cache_size ∧
      s1.Gen = s.Gen ∧ s1.PCRegister = s.PCRegister := by
  unfold SVMScheduler.Insert
  cases hf : mapFind s.ObjInfo id with
  | none =>
    simp only
    exact s.InsertNew_Inv h hcs id t cf (by simp [hf])
  | some rec =>
    simp only
    by_cases hflag : rec.IsInCache = true
    · rw [if_pos hflag]
      obtain ⟨hcons, hcnt, hle⟩ := h
      have hold : tripleOf id rec ∈ s.Cache := ConsistentCO.mem_of_cached hcons id rec hf hflag
      have hfind : setFind s.Cache ⟨id, rec.LastVisitedTime, rec.CacheFriend⟩ =
          some (tripleOf id rec) := setFind_of_mem (tripleOf id rec) s.Cache hold
      rw [hfind]
      simp only
      obtain ⟨e1, e2, e3⟩ := ConsistentCO.evict hcons (tripleOf id rec) hold rec hf
      have hmid : (mapFind (mapSet s.ObjInfo (tripleOf id rec).obj_id
          { rec with IsInCache := false }) id).map (fun r => r.IsInCache) ≠ some true := by
        simp [tripleOf, mapFind_mapSet_self]
      obtain ⟨i1, i2, i3⟩ := ConsistentCO.install e1 id hmid
        { rec with CacheFriend := cf, LastVisitedTime := t, IsInCache := true } rfl
      have hms : mapSet (mapSet s.ObjInfo (tripleOf id rec).obj_id
          { rec with IsInCache := false }) id
          { rec with CacheFriend := cf, LastVisitedTime := t, IsInCache := true } =
          mapSet s.ObjInfo id
            { rec with CacheFriend := cf, LastVisitedTime := t, IsInCache := true } :=
        mapSet_mapSet _ _ _ _
      rw [hms] at i1 i2
      exact ⟨_, rfl, ⟨i1, (i2.trans e2).trans (hcnt.trans (e3.symm.trans i3.symm)),
        le_of_eq_of_le (i3.trans e3) hle⟩, rfl, rfl, rfl⟩
    · rw [if_neg hflag]
      exact s.InsertNew_Inv h hcs id t cf (by simp [hf, hflag])

/-! ## Weights under training -/

theorem mem_mapSet_weak {V : Type} (m : List (Nat × V)) (x : Nat) (v : V) (p : Nat × V)
    (hp : p ∈ mapSet m x v) : p = (x, v) ∨ p ∈ m := by
  induction m with
  | nil =>
    simp only [mapSet, List.mem_singleton] at hp
    exact Or.inl hp
  | cons q m ih =>
    obtain ⟨k, w⟩ := q
    unfold mapSet at hp
    split_ifs at hp with hk
    · rcases List.mem_cons.1 hp with e | hm
      · exact Or.inl (by rw [e, hk])
      · exact Or.inr (by simp [hm])
    · rcases List.mem_cons.1 hp with e | hm
      · exact Or.inr (by simp [e])
      · rcases ih hm with e | h1
        · exact Or.inl e
        · exact Or.inr (by simp [h1])

theorem trainStep_within (status : Status) (acc : Int × List (Nat × Int)) (v : Nat)
    (h : ∀ q ∈ acc.2, -31 ≤ q.2 ∧ q.2 ≤ 31) :
    ∀ q ∈ (trainStep status acc v).2, -31 ≤ q.2 ∧ q.2 ≤ 31 := by
  have key : ∀ (m : List (Nat × Int)) (w : Int), (∀ q ∈ m, -31 ≤ q.2 ∧ q.2 ≤ 31) →
      -31 ≤ w ∧ w ≤ 31 → ∀ q ∈ mapSet m v w, -31 ≤ q.2 ∧ q.2 ≤ 31 := by
    intro m w hm hw q hq
    rcases mem_mapSet_weak m v w q hq with e | e
    · rw [e]
      exact hw
    · exact hm q e
  unfold trainStep
  cases hf : mapFind acc.2 v with
  | some w0 =>
    have hw0 := h (v, w0) (mapFind_mem acc.2 v w0 hf)
    simp only [hf, Option.getD_some, TrainingThreshold, LearningRate] at hw0 ⊢
    split_ifs with h1 h2 h3
    · exact key _ _ h (by omega)
    · exact h
    · exact key _ _ h (by omega)
    · exact h
  | none =>
    have h0 := key acc.2 0 h (by omega)
    simp only [mapFind_mapSet_self, Option.getD_some, TrainingThreshold, LearningRate]
    split_ifs with h1 h2 h3
    · exact key _ _ h0 (by omega)
    · exact h0
    · exact key _ _ h0 (by omega)
    · exact h0

theorem foldl_trainStep_within (status : Status) (elements : List Nat)
    (acc : Int × List (Nat × Int)) (h : ∀ q ∈ acc.2, -31 ≤ q.2 ∧ q.2 ≤ 31) :
    ∀ q ∈ (elements.foldl (trainStep status) acc).2, -31 ≤ q.2 ∧ q.2 ≤ 31 := by
  induction elements generalizing acc with
  | nil => exact h
  | cons v vs ih =>
    rw [List.foldl_cons]
    exact ih _ (trainStep_within status acc v h)

theorem trainLoop_within (status : Status) (elements : List Nat) (weights : List (Nat × Int))
    (h : ∀ q ∈ weights, -31 ≤ q.2 ∧ q.2 ≤ 31) :
    ∀ q ∈ (trainLoop status elements weights).2, -31 ≤ q.2 ∧ q.2 ≤ 31 :=
  foldl_trainStep_within status elements (0, weights) h

theorem WeightsWithin.mapSet {lo hi : Int} {m : List (Nat × SVMObject)}
    (h : WeightsWithin lo hi m) (id : Nat) (rec : SVMObject)
    (hr : ∀ q ∈ rec.weights, lo ≤ q.2 ∧ q.2 ≤ hi) : WeightsWithin lo hi (mapSet m id rec) := by
  intro p hp
  rcases mem_mapSet_weak m id rec p hp with e | e
  · rw [e]
    exact hr
  · exact h p e

theorem WeightsWithin.of_find {lo hi : Int} {m : List (Nat × SVMObject)}
    (h : WeightsWithin lo hi m) (id : Nat) (rec : SVMObject) (hf : mapFind m id = some rec) :
    ∀ q ∈ rec.weights, lo ≤ q.2 ∧ q.2 ≤ hi :=
  h (id, rec) (mapFind_mem m id rec hf)

theorem SVMScheduler.Delete_weights {lo hi : Int} (s s1 : SVMScheduler)
    (hd : s.Delete = some s1) (h : WeightsWithin lo hi s.ObjInfo) :
    WeightsWithin lo hi s1.ObjInfo := by
  unfold SVMScheduler.Delete at hd
  cases hC : s.Cache with
  | nil => simp [hC] at hd
  | cons it rest =>
    cases hf : mapFind s.ObjInfo it.obj_id with
    | none => simp [hC, hf] at hd
    | some rec =>
      simp only [hC, hf, Option.some.injEq] at hd
      subst hd
      exact h.mapSet _ _ (h.of_find _ rec hf)

theorem SVMScheduler.InsertNew_weights {lo hi : Int} (s s1 : SVMScheduler) (id t : Nat)
    (cf : Int) (hi1 : s.InsertNew id t cf = some s1) (h : WeightsWithin lo hi s.ObjInfo) :
    WeightsWithin lo hi s1.ObjInfo := by
  unfold SVMScheduler.InsertNew at hi1
  cases hr : (if s.Cache.length = s.cache_size then s.Delete else some s) with
  | none => simp [hr] at hi1
  | some s0 =>
    have h0 : WeightsWithin lo hi s0.ObjInfo := by
      split_ifs at hr with hfull
      · exact s.Delete_weights s0 hr h
      · cases hr
        exact h
    rw [hr] at hi1
    simp only [Option.some_bind] at hi1
    cases hf : mapFind s0.ObjInfo id with
    | none =>
      simp only [hf, Option.some.injEq] at hi1
      subst hi1
      exact h0.mapSet _ _ (by simp)
    | some rec =>
      simp only [hf, Option.some.injEq] at hi1
      subst hi1
      exact h0.mapSet _ _ (h0.of_find _ rec hf)

theorem SVMScheduler.Insert_weights {lo hi : Int} (s s1 : SVMScheduler) (id t : Nat)
    (cf : Int) (hi1 : s.Insert id t cf = some s1) (h : WeightsWithin lo hi s.ObjInfo) :
    WeightsWithin lo hi s1.ObjInfo := by
  unfold SVMScheduler.Insert at hi1
  cases hf : mapFind s.ObjInfo id with
  | none =>
    simp only [hf] at hi1
    exact s.InsertNew_weights s1 id t cf hi1 h
  | some rec =>
    simp only [hf] at hi1
    split_ifs at hi1 with hflag
    · cases hs : setFind s.Cache ⟨id, rec.LastVisitedTime, rec.CacheFriend⟩ with
      | none => simp [hs] at hi1
      | some old =>
        simp only [hs, Option.some.injEq] at hi1
        subst hi1
        exact h.mapSet _ _ (h.of_find _ rec hf)
    · exact s.InsertNew_weights s1 id t cf hi1 h

/-! ## The invariant along `run` -/

/-- The state handed to `Insert` by `access`: the oracle has advanced and the
weights of the accessed object are trained. -/
theorem SVMScheduler.access_eq (s : SVMScheduler) (result : Result) (obj_id : Nat) :
    s.access result obj_id =
      (SVMScheduler.Insert
        { s with
          Gen := (s.Gen.TimeStampInc obj_id).1
          ObjInfo :=
            (match mapFind s.ObjInfo obj_id with
              | some rec =>
                ((trainLoop (s.Gen.TimeStampInc obj_id).2 s.PCRegister.elements rec.weights).1,
                  mapSet s.ObjInfo obj_id
                    { rec with weights :=
                        (trainLoop (s.Gen.TimeStampInc obj_id).2 s.PCRegister.elements
                          rec.weights).2 })
              | none => ((0 : Int), s.ObjInfo)).2 }
        obj_id (s.Gen.TimeStampInc obj_id).1.TimeStamp.toNat
        (match mapFind s.ObjInfo obj_id with
          | some rec =>
            ((trainLoop (s.Gen.TimeStampInc obj_id).2 s.PCRegister.elements rec.weights).1,
              mapSet s.ObjInfo obj_id
                { rec with weights :=
                    (trainLoop (s.Gen.TimeStampInc obj_id).2 s.PCRegister.elements
                      rec.weights).2 })
          | none => ((0 : Int), s.ObjInfo)).1).bind
        fun s1 => some ({ s1 with PCRegister := s1.PCRegister.Insert obj_id },
          if (!s.CheckInCache obj_id) = true
          then { result with cache_misses := result.cache_misses + 1 } else result) := rfl

theorem SVMScheduler.access_Inv (s : SVMScheduler) (h : s.Inv) (hcs : 1 ≤ s.cache_size)
    (result : Result) (obj_id : Nat) :
    ∃ sr, s.access result obj_id = some sr ∧ sr.1.Inv ∧ sr.1.cache_size = s.cache_size := by
  rw [SVMScheduler.access_eq]
  generalize (s.Gen.TimeStampInc obj_id).2 = status
  generalize (s.Gen.TimeStampInc obj_id).1 = gen
  obtain ⟨hcons, hcnt, hle⟩ := h
  cases hf : mapFind s.ObjInfo obj_id with
  | none =>
    simp only
    obtain ⟨s1, i1, i2, i3, -, -⟩ := SVMScheduler.Insert_Inv
      { s with Gen := gen, ObjInfo := s.ObjInfo } ⟨hcons, hcnt, hle⟩ hcs obj_id
      gen.TimeStamp.toNat 0
    rw [i1]
    exact ⟨_, rfl, i2, i3⟩
  | some rec =>
    simp only
    obtain ⟨t1, t2⟩ := ConsistentCO.touch hcons obj_id rec
      { rec with weights := (trainLoop status s.PCRegister.elements rec.weights).2 } hf
      rfl rfl rfl
    obtain ⟨s1, i1, i2, i3, -, -⟩ := SVMScheduler.Insert_Inv
      { s with
        Gen := gen
        ObjInfo := mapSet s.ObjInfo obj_id
          { rec with weights := (trainLoop status s.PCRegister.elements rec.weights).2 } }
      ⟨t1, t2.trans hcnt, hle⟩ hcs obj_id gen.TimeStamp.toNat
      (trainLoop status s.PCRegister.elements rec.weights).1
    rw [i1]
    exact ⟨_, rfl, i2, i3⟩

theorem SVMScheduler.access_weights (s : SVMScheduler) (result : Result) (obj_id : Nat)
    (sr : SVMScheduler × Result) (ha : s.access result obj_id = some sr)
    (h : WeightsWithin (-31) 31 s.ObjInfo) : WeightsWithin (-31) 31 sr.1.ObjInfo := by
  rw [SVMScheduler.access_eq] at ha
  generalize (s.Gen.TimeStampInc obj_id).2 = status at ha
  generalize (s.Gen.TimeStampInc obj_id).1 = gen at ha
  have hpre : WeightsWithin (-31) 31
      (match mapFind s.ObjInfo obj_id with
        | some rec =>
          ((trainLoop status s.PCRegister.elements rec.weights).1,
            mapSet s.ObjInfo obj_id
              { rec with weights := (trainLoop status s.PCRegister.elements rec.weights).2 })
        | none => ((0 : Int), s.ObjInfo)).2 := by
    cases hf : mapFind s.ObjInfo obj_id with
    | none => exact h
    | some rec =>
      simp only
      exact h.mapSet _ _ (trainLoop_within status _ _ (h.of_find obj_id rec hf))
  generalize (match mapFind s.ObjInfo obj_id with
        | some rec =>
          ((trainLoop status s.PCRegister.elements rec.weights).1,
            mapSet s.ObjInfo obj_id
              { rec with weights := (trainLoop status s.PCRegister.elements rec.weights).2 })
        | none => ((0 : Int), s.ObjInfo)) = po at ha hpre
  cases hi : SVMScheduler.Insert { s with Gen := gen, ObjInfo := po.2 } obj_id
      gen.TimeStamp.toNat po.1 with
  | none => simp [hi] at ha
  | some s1 =>
    rw [hi] at ha
    simp only [Option.some_bind, Option.some.injEq] at ha
    subst ha
    exact SVMScheduler.Insert_weights _ s1 obj_id _ _ hi hpre

theorem SVMScheduler.runFrom_Inv (requests : List Nat) (s : SVMScheduler) (h : s.Inv)
    (hcs : 1 ≤ s.cache_size) (hw : WeightsWithin (-31) 31 s.ObjInfo) (result : Result) :
    ∃ sr, s.runFrom result requests = some sr ∧ sr.1.Inv ∧ sr.1.cache_size = s.cache_size ∧
      WeightsWithin (-31) 31 sr.1.ObjInfo := by
  induction requests generalizing s result with
  | nil => exact ⟨(s, result), rfl, h, rfl, hw⟩
  | cons x xs ih =>
    obtain ⟨sr, a1, a2, a3⟩ := s.access_Inv h hcs result x
    have a4 := s.access_weights result x sr a1 hw
    obtain ⟨sr1, b1, b2, b3, b4⟩ := ih sr.1 a2 (by omega) a4 sr.2
    refine ⟨sr1, ?_, b2, by omega, b4⟩
    unfold SVMScheduler.runFrom
    rw [a1]
    exact b1

/-- The run over a stream passes through the run over each of its prefixes. -/
theorem SVMScheduler.runFrom_append (xs ys : List Nat) (s : SVMScheduler) (result : Result) :
    s.runFrom result (xs ++ ys) =
      (s.runFrom result xs).bind fun sr => SVMScheduler.runFrom sr.1 sr.2 ys := by
  induction xs generalizing s result with
  | nil => simp [SVMScheduler.runFrom]
  | cons x xs ih =>
    simp only [List.cons_append, SVMScheduler.runFrom]
    cases ha : s.access result x with
    | none => simp
    | some sr => simp [ih]

theorem SVMScheduler.Inv_new (cache_size : Nat) : (SVMScheduler.new cache_size).Inv := by
  refine ⟨⟨?_, ?_, ?_, ?_⟩, ?_, ?_⟩ <;> simp [SVMScheduler.new, cachedCount]

/-- For every capacity `≥ 1` and every request stream `run` returns, and the
final state satisfies the invariant and has all weights in `[-31, 31]`. -/
theorem SVMScheduler.run_Inv (cache_size : Nat) (hcs : 1 ≤ cache_size) (requests : List Nat) :
    ∃ sr, (SVMScheduler.new cache_size).run requests = some sr ∧ sr.1.Inv ∧
      sr.1.cache_size = cache_size ∧ WeightsWithin (-31) 31 sr.1.ObjInfo := by
  have hw : WeightsWithin (-31) 31 (SVMScheduler.new cache_size).ObjInfo := by
    intro p hp
    simp [SVMScheduler.new] at hp
  exact SVMScheduler.runFrom_Inv requests _ (SVMScheduler.Inv_new cache_size) hcs hw _

theorem eq_singleton_of_nodup {α : Type} (l : List α) (x : α) (hn : l.Nodup)
    (hall : ∀ y ∈ l, y = x) (hx : x ∈ l) : l = [x] := by
  cases l with
  | nil => simp at hx
  | cons y t =>
    have hy : y = x := hall y (by simp)
    subst hy
    cases t with
    | nil => rfl
    | cons z t1 =>
      have hz : z = y := hall z (by simp)
      subst hz
      simp at hn

/-- In a consistent state the triples of the set that carry a given id are
exactly the triple of that id's record when the record is flagged, and none
otherwise. -/
theorem ConsistentCO.filter_obj_id {Cache : List CacheObject}
    {ObjInfo : List (Nat × SVMObject)} (h : ConsistentCO Cache ObjInfo) (id : Nat) :
    Cache.filter (fun c => decide (c.obj_id = id)) =
      match mapFind ObjInfo id with
      | some rec => if rec.IsInCache = true then [tripleOf id rec] else []
      | none => [] := by
  have hnone : (mapFind ObjInfo id).map (fun r => r.IsInCache) ≠ some true →
      Cache.filter (fun c => decide (c.obj_id = id)) = [] := by
    intro hnc
    rw [List.filter_eq_nil_iff]
    intro c hc
    simpa using h.not_mem_of_not_cached id hnc c hc
  cases hf : mapFind ObjInfo id with
  | none =>
    simp only
    exact hnone (by simp [hf])
  | some rec =>
    simp only
    by_cases hflag : rec.IsInCache = true
    · rw [if_pos hflag]
      apply eq_singleton_of_nodup
      · exact (sorted_nodup Cache h.1).sublist (List.filter_sublist _)
      · intro y hy
        obtain ⟨hy1, hy2⟩ := List.mem_filter.1 hy
        have hid : y.obj_id = id := by simpa using hy2
        subst hid
        exact (h.eq_of_obj_id y hy1 rec hf).2
      · apply List.mem_filter.2
        exact ⟨h.mem_of_cached id rec hf hflag, by simp [tripleOf]⟩
    · rw [if_neg hflag]
      exact hnone (by simp [hf, hflag])

/-! ## Claims on the engine -/

/-- C3: a fresh scheduler with capacity 2 run on `[1, 2, 3, 1]` reports 4
requests and 4 misses, one miss being counted at each access; after the second
access objects 1 and 2 are resident with equal priority 0 and object 1 has the
older last time; the third access evicts object 1, leaving exactly `{2, 3}`
resident, so object 1 is not resident when it is accessed again. -/
theorem C3_end_to_end :
    ((SVMScheduler.new 2).run [1, 2, 3, 1]).map (fun sr => (sr.2.total, sr.2.cache_misses))
        = some (4, 4) ∧
      ((SVMScheduler.new 2).run [1]).map (fun sr => sr.2.cache_misses) = some 1 ∧
      ((SVMScheduler.new 2).run [1, 2]).map (fun sr => sr.2.cache_misses) = some 2 ∧
      ((SVMScheduler.new 2).run [1, 2, 3]).map (fun sr => sr.2.cache_misses) = some 3 ∧
      ((SVMScheduler.new 2).run [1, 2]).map (fun sr => sr.1.Cache)
        = some [⟨1, 0, 0⟩, ⟨2, 1, 0⟩] ∧
      ((SVMScheduler.new 2).run [1, 2, 3]).map (fun sr => sr.1.Cache)
        = some [⟨2, 1, 0⟩, ⟨3, 2, 0⟩] ∧
      ((SVMScheduler.new 2).run [1, 2, 3]).map (fun sr => sr.1.resident) = some [2, 3] ∧
      ((SVMScheduler.new 2).run [1, 2, 3]).map (fun sr => sr.1.CheckInCache 1)
        = some false := by
  decide

/-- C7 (as stated, refuted): with capacity 2, after 32 accesses to object 7 the
weight of object 7 for context 7 is 31, above `TrainingThreshold = 30`; a `Hit`
does increment a weight that is at `+TrainingThreshold`, and a `Miss` does
decrement a weight that is at `-TrainingThreshold`. -/
theorem C7_counterexample :
    ((SVMScheduler.new 2).run (List.replicate 32 7)).bind (fun sr => sr.1.weight 7 7)
        = some 31 ∧
      ¬ ((31 : Int) ≤ TrainingThreshold) ∧
      trainStep Status.Hit (0, [(7, TrainingThreshold)]) 7
        = (TrainingThreshold, [(7, TrainingThreshold + 1)]) ∧
      trainStep Status.Miss (0, [(7, -TrainingThreshold)]) 7
        = (-TrainingThreshold, [(7, -TrainingThreshold - 1)]) := by
  decide

/-- C7 (amended): for every capacity `≥ 1` and every request stream, `run`
returns and every stored weight of every object lies in
`[-(TrainingThreshold + LearningRate), TrainingThreshold + LearningRate]`
`= [-31, 31]`; a `Hit` does not change a weight that is above
`+TrainingThreshold` and a `Miss` does not change a weight that is below
`-TrainingThreshold`. -/
theorem C7_weights_within (cache_size : Nat) (hcs : 1 ≤ cache_size) (requests : List Nat) :
    (∃ sr, (SVMScheduler.new cache_size).run requests = some sr ∧
      (∀ p ∈ sr.1.ObjInfo, ∀ q ∈ p.2.weights,
        -(TrainingThreshold + LearningRate) ≤ q.2 ∧ q.2 ≤ TrainingThreshold + LearningRate) ∧
      (∀ id v w, sr.1.weight id v = some w → -31 ≤ w ∧ w ≤ 31)) ∧
    TrainingThreshold + LearningRate = 31 ∧
    (∀ (prediction : Int) (weights : List (Nat × Int)) (v : Nat) (w : Int),
      mapFind weights v = some w → TrainingThreshold < w →
        (trainStep Status.Hit (prediction, weights) v).2 = weights) ∧
    (∀ (prediction : Int) (weights : List (Nat × Int)) (v : Nat) (w : Int),
      mapFind weights v = some w → w < -TrainingThreshold →
        (trainStep Status.Miss (prediction, weights) v).2 = weights) := by
  obtain ⟨sr, h1, -, -, h4⟩ := SVMScheduler.run_Inv cache_size hcs requests
  refine ⟨⟨sr, h1, h4, ?_⟩, rfl, ?_, ?_⟩
  · intro id v w hw
    unfold SVMScheduler.weight at hw
    cases hf : mapFind sr.1.ObjInfo id with
    | none => simp [hf] at hw
    | some rec =>
      rw [hf] at hw
      simp only [Option.some_bind] at hw
      exact h4.of_find id rec hf (v, w) (mapFind_mem _ v w hw)
  · intro prediction weights v w hf hw
    have : ¬ w ≤ TrainingThreshold := by omega
    simp [trainStep, hf, this]
  · intro prediction weights v w hf hw
    have : ¬ w ≥ -TrainingThreshold := by omega
    simp [trainStep, hf, this]

/-- C7 (amended), instance: capacity 2 and 40 accesses to object 7. -/
theorem C7_weights_within_witness :
    ((SVMScheduler.new 2).run (List.replicate 40 7)).bind (fun sr => sr.1.weight 7 7)
        = some 31 ∧
    ((∃ sr, (SVMScheduler.new 2).run (List.replicate 40 7) = some sr ∧
      (∀ p ∈ sr.1.ObjInfo, ∀ q ∈ p.2.weights,
        -(TrainingThreshold + LearningRate) ≤ q.2 ∧ q.2 ≤ TrainingThreshold + LearningRate) ∧
      (∀ id v w, sr.1.weight id v = some w → -31 ≤ w ∧ w ≤ 31)) ∧
    TrainingThreshold + LearningRate = 31 ∧
    (∀ (prediction : Int) (weights : List (Nat × Int)) (v : Nat) (w : Int),
      mapFind weights v = some w → TrainingThreshold < w →
        (trainStep Status.Hit (prediction, weights) v).2 = weights) ∧
    (∀ (prediction : Int) (weights : List (Nat × Int)) (v : Nat) (w : Int),
      mapFind weights v = some w → w < -TrainingThreshold →
        (trainStep Status.Miss (prediction, weights) v).2 = weights)) :=
  ⟨by decide, C7_weights_within 2 (by decide) (List.replicate 40 7)⟩

/-- C8: for every capacity `≥ 1` and every request stream, `run` returns (no
lookup in `Insert` or `Delete` fails) and in the final state, for every id,
the triples of `Cache` with that `obj_id` are exactly the one triple
`(CacheFriend, LastVisitedTime, obj_id)` of the id's record when that record
has `IsInCache == true`, and none when the record is absent or has
`IsInCache == false`. -/
theorem C8_cross_structure (cache_size : Nat) (hcs : 1 ≤ cache_size) (requests : List Nat) :
    ∃ sr, (SVMScheduler.new cache_size).run requests = some sr ∧
      ∀ id, sr.1.Cache.filter (fun c => decide (c.obj_id = id)) =
        match mapFind sr.1.ObjInfo id with
        | some rec =>
          if rec.IsInCache = true then
            [{ obj_id := id, LastVisitedTime := rec.LastVisitedTime,
               CacheFriend := rec.CacheFriend }]
          else []
        | none => [] := by
  obtain ⟨sr, h1, h2, -, -⟩ := SVMScheduler.run_Inv cache_size hcs requests
  exact ⟨sr, h1, fun id => ConsistentCO.filter_obj_id h2.1 id⟩

/-- C8, instance: capacity 2 and the stream `[1, 2, 3, 1]`. -/
theorem C8_cross_structure_witness :
    ((SVMScheduler.new 2).run [1, 2, 3, 1]).map (fun sr => sr.1.resident) = some [3, 1] ∧
    ∃ sr, (SVMScheduler.new 2).run [1, 2, 3, 1] = some sr ∧
      ∀ id, sr.1.Cache.filter (fun c => decide (c.obj_id = id)) =
        match mapFind sr.1.ObjInfo id with
        | some rec =>
          if rec.IsInCache = true then
            [{ obj_id := id, LastVisitedTime := rec.LastVisitedTime,
               CacheFriend := rec.CacheFriend }]
          else []
        | none => [] :=
  ⟨by decide, C8_cross_structure 2 (by decide) [1, 2, 3, 1]⟩

/-- C9: for every capacity `≥ 1` and every request stream, `run` returns and in
the final state the number of `ObjInfo` records with `IsInCache == true`
equals `Cache.size()`, which is at most the configured `cache_size`; the
records have pairwise distinct keys. -/
theorem C9_cardinality (cache_size : Nat) (hcs : 1 ≤ cache_size) (requests : List Nat) :
    ∃ sr, (SVMScheduler.new cache_size).run requests = some sr ∧
      (sr.1.ObjInfo.filter (fun p => p.2.IsInCache)).length = sr.1.Cache.length ∧
      cachedCount sr.1.ObjInfo = sr.1.Cache.length ∧
      sr.1.Cache.length ≤ cache_size ∧ sr.1.cache_size = cache_size ∧
      (sr.1.ObjInfo.map Prod.fst).Nodup := by
  obtain ⟨sr, h1, h2, h3, -⟩ := SVMScheduler.run_Inv cache_size hcs requests
  refine ⟨sr, h1, ?_, h2.2.1, by rw [← h3]; exact h2.2.2, h3, h2.1.2.1⟩
  rw [← h2.2.1, cachedCount, List.countP_eq_length_filter]

/-- C9, instance: capacity 2 and the stream `[1, 2, 3, 1]`; three records, two
of them flagged. -/
theorem C9_cardinality_witness :
    ((SVMScheduler.new 2).run [1, 2, 3, 1]).map
        (fun sr => (sr.1.ObjInfo.length, cachedCount sr.1.ObjInfo, sr.1.Cache.length))
        = some (3, 2, 2) ∧
    ∃ sr, (SVMScheduler.new 2).run [1, 2, 3, 1] = some sr ∧
      (sr.1.ObjInfo.filter (fun p => p.2.IsInCache)).length = sr.1.Cache.length ∧
      cachedCount sr.1.ObjInfo = sr.1.Cache.length ∧
      sr.1.Cache.length ≤ 2 ∧ sr.1.cache_size = 2 ∧
      (sr.1.ObjInfo.map Prod.fst).Nodup :=
  ⟨by decide, C9_cardinality 2 (by decide) [1, 2, 3, 1]⟩

/-- C10: on every consistent state with a non-empty eviction set, `Delete`
succeeds and removes exactly the element `victim` whose key
`(CacheFriend, LastVisitedTime, obj_id)` is lexicographically minimal in the
set, sets `IsInCache` of the victim's record to false leaving that record's
other fields alone, and changes no other element, no other record and no other
part of the engine; of two cached objects with equal priority and equal last
time, the one with the higher id is not the victim. -/
theorem C10_Delete_victim (s : SVMScheduler) (hne : s.Cache ≠ []) (hc : s.Consistent) :
    ∃ victim rec s1, s.Delete = some s1 ∧
      victim ∈ s.Cache ∧ (∀ c ∈ s.Cache, lexLe victim c) ∧
      (∀ c ∈ s.Cache, c ≠ victim → victim.lt c = true) ∧
      s1.Cache = s.Cache.erase victim ∧
      (∀ c, c ∈ s1.Cache ↔ c ∈ s.Cache ∧ c ≠ victim) ∧
      mapFind s.ObjInfo victim.obj_id = some rec ∧ rec.IsInCache = true ∧
      mapFind s1.ObjInfo victim.obj_id = some { rec with IsInCache := false } ∧
      (∀ id, id ≠ victim.obj_id → mapFind s1.ObjInfo id = mapFind s.ObjInfo id) ∧
      s1.cache_size = s.cache_size ∧ s1.Gen = s.Gen ∧ s1.PCRegister = s.PCRegister ∧
      (∀ a ∈ s.Cache, ∀ b ∈ s.Cache, a.CacheFriend = b.CacheFriend →
        a.LastVisitedTime = b.LastVisitedTime → a.obj_id < b.obj_id →
          victim ≠ b ∧ b ∈ s1.Cache) := by
  cases hC : s.Cache with
  | nil => exact absurd hC hne
  | cons it rest =>
    obtain ⟨rec, h1, h2, -, h4⟩ := s.Delete_eq hc it rest hC
    have hsorted : (it :: rest).Pairwise (fun a b => a.lt b = true) := by
      rw [← hC]
      exact hc.1
    have hnd : (it :: rest).Nodup := sorted_nodup _ hsorted
    have hmin : ∀ c ∈ it :: rest, c ≠ it → it.lt c = true := by
      intro c hm hcne
      rcases sorted_head_min it rest hsorted c hm with e | e
      · exact absurd e hcne
      · exact e
    have hmem : ∀ c, c ∈ rest ↔ c ∈ it :: rest ∧ c ≠ it := by
      intro c
      constructor
      · intro hm
        refine ⟨by simp [hm], ?_⟩
        rintro rfl
        exact (List.nodup_cons.1 hnd).1 hm
      · rintro ⟨hm, hcne⟩
        rcases List.mem_cons.1 hm with e | e
        · exact absurd e hcne
        · exact e
    refine ⟨it, rec, _, h4, by simp, ?_, hmin, ?_, hmem, h1, h2, ?_, ?_, rfl, rfl, rfl, ?_⟩
    · intro c hm
      by_cases e : c = it
      · subst e
        exact Or.inr ⟨rfl, Or.inr ⟨rfl, le_refl _⟩⟩
      · have hlt := (CacheObject.lt_iff it c).1 (hmin c hm e)
        unfold lexLe
        omega
    · simp
    · simp [mapFind_mapSet_self]
    · intro id hid
      exact mapFind_mapSet_ne _ _ _ _ (fun e => hid e.symm)
    · intro a ha b hb e1 e2 e3
      have hbne : it ≠ b := by
        rintro rfl
        have hane : a ≠ it := by
          rintro rfl
          omega
        have hlt := (CacheObject.lt_iff it a).1 (hmin a ha hane)
        omega
      exact ⟨hbne, (hmem b).2 ⟨hb, fun e => hbne e.symm⟩⟩

/-- C10, instance: objects 1 and 2 are cached with equal priority 0 and equal
last time 5; `Delete` evicts object 1 and keeps object 2. -/
theorem C10_Delete_victim_witness :
    tieState.Delete.map (fun s1 => (s1.resident, s1.CheckInCache 1, s1.CheckInCache 2))
        = some ([2], false, true) ∧
    tieState.Cache ≠ [] ∧ tieState.Consistent ∧
    ∃ victim rec s1, tieState.Delete = some s1 ∧
      victim ∈ tieState.Cache ∧ (∀ c ∈ tieState.Cache, lexLe victim c) ∧
      (∀ c ∈ tieState.Cache, c ≠ victim → victim.lt c = true) ∧
      s1.Cache = tieState.Cache.erase victim ∧
      (∀ c, c ∈ s1.Cache ↔ c ∈ tieState.Cache ∧ c ≠ victim) ∧
      mapFind tieState.ObjInfo victim.obj_id = some rec ∧ rec.IsInCache = true ∧
      mapFind s1.ObjInfo victim.obj_id = some { rec with IsInCache := false } ∧
      (∀ id, id ≠ victim.obj_id → mapFind s1.ObjInfo id = mapFind tieState.ObjInfo id) ∧
      s1.cache_size = tieState.cache_size ∧ s1.Gen = tieState.Gen ∧
      s1.PCRegister = tieState.PCRegister ∧
      (∀ a ∈ tieState.Cache, ∀ b ∈ tieState.Cache, a.CacheFriend = b.CacheFriend →
        a.LastVisitedTime = b.LastVisitedTime → a.obj_id < b.obj_id →
          victim ≠ b ∧ b ∈ s1.Cache) :=
  ⟨by decide, by decide, by decide, C10_Delete_victim tieState (by decide) (by decide)⟩

/-! ## Claims on construction, the order and the assertion -/

/-- C11 (as stated, refuted): constructing the engine with `cache_size = 0`
is not rejected; it yields the engine with empty structures, which runs the
empty stream, and only the first access fails (`Delete` on the empty set). -/
theorem C11_counterexample :
    SVMScheduler.new 0 =
        { cache_size := 0, Gen := { CacheSize := 0, Capacity := [], LastVisitedTime := [],
                                    TimeStamp := -1 },
          PCRegister := { elements := [] }, Cache := [], ObjInfo := [] } ∧
      (SVMScheduler.new 0).run [] = some (SVMScheduler.new 0, { total := 0, cache_misses := 0 }) ∧
      (SVMScheduler.new 0).Delete = none ∧
      (SVMScheduler.new 0).run [7] = none := by
  decide

/-- C11 (amended): the constructors of `SVMScheduler` and `OPTgen` perform no
validation: for every capacity, 0 included, construction yields an engine that
stores the capacity as given, has empty structures, satisfies the engine
invariant, and runs the empty request stream, reporting 0 requests and 0
misses. -/
theorem C11_no_validation (cache_size : Nat) :
    (SVMScheduler.new cache_size).cache_size = cache_size ∧
      (SVMScheduler.new cache_size).Gen = OPTgen.new cache_size ∧
      (OPTgen.new cache_size).CacheSize = cache_size ∧
      (SVMScheduler.new cache_size).Cache = [] ∧
      (SVMScheduler.new cache_size).ObjInfo = [] ∧
      (SVMScheduler.new cache_size).Inv ∧
      (SVMScheduler.new cache_size).run [] =
        some (SVMScheduler.new cache_size, { total := 0, cache_misses := 0 }) :=
  ⟨rfl, rfl, rfl, rfl, rfl, SVMScheduler.Inv_new cache_size, rfl⟩

/-- C17: `CacheObject::operator<` is the strict lexicographic order on
`(CacheFriend, LastVisitedTime, obj_id)`; it is irreflexive and transitive,
and for any two entries exactly one of `a < b`, `b < a`, or agreement on all
three fields holds; entries that agree on all three fields are equal. -/
theorem C17_strict_total_order :
    (∀ a b : CacheObject, a.lt b = true ↔
      a.CacheFriend < b.CacheFriend ∨
        (a.CacheFriend = b.CacheFriend ∧
          (a.LastVisitedTime < b.LastVisitedTime ∨
            (a.LastVisitedTime = b.LastVisitedTime ∧ a.obj_id < b.obj_id)))) ∧
    (∀ a : CacheObject, a.lt a = false) ∧
    (∀ a b c : CacheObject, a.lt b = true → b.lt c = true → a.lt c = true) ∧
    (∀ a b : CacheObject,
      (a.lt b = true ∧ b.lt a = false ∧ ¬ a.agree b) ∨
      (a.lt b = false ∧ b.lt a = true ∧ ¬ a.agree b) ∨
      (a.lt b = false ∧ b.lt a = false ∧ a.agree b)) ∧
    (∀ a b : CacheObject, a.agree b ↔ a = b) := by
  have hagree : ∀ a b : CacheObject, a.agree b ↔ a = b := by
    intro a b
    obtain ⟨a1, a2, a3⟩ := a
    obtain ⟨b1, b2, b3⟩ := b
    simp only [CacheObject.agree, CacheObject.mk.injEq]
    tauto
  refine ⟨CacheObject.lt_iff, CacheObject.lt_irrefl, CacheObject.lt_trans, ?_, hagree⟩
  intro a b
  cases hab : a.lt b with
  | true =>
    have h1 := (CacheObject.lt_iff a b).1 hab
    have hba : b.lt a = false := by
      cases h : b.lt a with
      | false => rfl
      | true =>
        have h2 := (CacheObject.lt_iff b a).1 h
        omega
    refine Or.inl ⟨rfl, hba, ?_⟩
    unfold CacheObject.agree
    omega
  | false =>
    cases hba : b.lt a with
    | true =>
      have h2 := (CacheObject.lt_iff b a).1 hba
      refine Or.inr (Or.inl ⟨rfl, rfl, ?_⟩)
      unfold CacheObject.agree
      omega
    | false =>
      exact Or.inr (Or.inr ⟨rfl, rfl, (hagree a b).2 (CacheObject.eq_of_not_lt a b hab hba)⟩)

/-- C18 (the code breaks its own assertion): in every oracle state reached
from a fresh `OPTgen`, the condition `Capacity.size() == TimeStamp` of the
`assert` on line 39 is false at the next call of `TimeStampInc`: after the
increment and the `push_back` there is one slot more than the clock value. -/
theorem C18_assert_fails (cache_size : Nat) (stream : List Nat) :
    ((OPTgen.new cache_size).feed stream).assertHolds = false ∧
      ((((OPTgen.new cache_size).feed stream).Capacity ++ [0]).length : Int) =
        (((OPTgen.new cache_size).feed stream).TimeStamp + 1) + 1 := by
  have hlen := (OPTgen.WF_feed stream _ (OPTgen.WF_new cache_size)).1
  constructor
  · unfold OPTgen.assertHolds
    simp only [List.length_append, List.length_singleton, Nat.cast_add, Nat.cast_one,
      decide_eq_false_iff_not]
    omega
  · simp only [List.length_append, List.length_singleton, Nat.cast_add, Nat.cast_one]
    omega

/-! ## The oracle along a stream -/

theorem OPTgen.feed_TimeStamp (stream : List Nat) (g : OPTgen) :
    (g.feed stream).TimeStamp = g.TimeStamp + stream.length := by
  induction stream generalizing g with
  | nil => simp [OPTgen.feed]
  | cons x xs ih =>
    rw [OPTgen.feed_cons, ih, OPTgen.TimeStampInc_TimeStamp]
    simp only [List.length_cons, Nat.cast_add, Nat.cast_one]
    omega

theorem OPTgen.new_feed_TimeStamp (cache_size : Nat) (stream : List Nat) :
    ((OPTgen.new cache_size).feed stream).TimeStamp + 1 = stream.length := by
  rw [OPTgen.feed_TimeStamp]
  simp only [OPTgen.new]
  omega

/-- Every slot, the freshly appended one included, is at most `CacheSize`. -/
theorem OPTgen.WF.slot_le {g : OPTgen} (hwf : g.WF) (j : Nat) :
    (g.Capacity ++ [0]).getD j 0 ≤ g.CacheSize := by
  rw [getD_append_zero]
  by_cases hj : j < g.Capacity.length
  · apply hwf.2.2
    rw [List.getD_eq_getElem?_getD, List.getElem?_eq_getElem hj]
    exact List.getElem_mem hj
  · rw [List.getD_eq_getElem?_getD, List.getElem?_eq_none (by omega)]
    exact Nat.zero_le _

/-- The oracle has no recorded access time exactly for the ids that are not in
the stream fed so far. -/
theorem OPTgen.feed_LastVisitedTime_none (cache_size : Nat) (pre : List Nat) (id : Nat) :
    mapFind ((OPTgen.new cache_size).feed pre).LastVisitedTime id = none ↔ id ∉ pre := by
  induction pre using List.reverseRecOn with
  | nil => simp [OPTgen.feed, OPTgen.new, mapFind]
  | append_singleton pre a ih =>
    rw [OPTgen.feed_snoc, OPTgen.TimeStampInc_LastVisitedTime, mapFind_mapSet]
    by_cases e : a = id
    · simp [e]
    · have e1 : ¬ id = a := fun h => e h.symm
      simp [e, e1, ih]

/-- The recorded access time of an id is the position of its last occurrence
in the stream fed so far. -/
theorem OPTgen.feed_LastVisitedTime_some (cache_size : Nat) (pre : List Nat) (id : Nat)
    (t : Int) (h : mapFind ((OPTgen.new cache_size).feed pre).LastVisitedTime id = some t) :
    0 ≤ t ∧ pre[t.toNat]? = some id ∧ ∀ j, t.toNat < j → pre[j]? ≠ some id := by
  induction pre using List.reverseRecOn generalizing t with
  | nil => simp [OPTgen.feed, OPTgen.new, mapFind] at h
  | append_singleton pre a ih =>
    rw [OPTgen.feed_snoc, OPTgen.TimeStampInc_LastVisitedTime, mapFind_mapSet] at h
    have hT := OPTgen.new_feed_TimeStamp cache_size pre
    by_cases e : a = id
    · rw [if_pos e] at h
      cases h
      rw [hT]
      refine ⟨Int.ofNat_nonneg _, ?_, ?_⟩
      · simp [e]
      · intro j hj
        have hj1 : pre.length < j := by simpa using hj
        rw [List.getElem?_eq_none (by simp; omega)]
        simp
    · rw [if_neg e] at h
      obtain ⟨h1, h2, h3⟩ := ih t h
      have hlt : t.toNat < pre.length := by
        by_contra hc
        rw [List.getElem?_eq_none (by omega)] at h2
        simp at h2
      refine ⟨h1, ?_, ?_⟩
      · rw [List.getElem?_append_left hlt]
        exact h2
      · intro j hj
        by_cases hjl : j < pre.length
        · rw [List.getElem?_append_left hjl]
          exact h3 j hj
        · by_cases hje : j = pre.length
          · subst hje
            simp [e]
          · rw [List.getElem?_eq_none (by simp; omega)]
            simp

/-- The label `Hit` in terms of the slots of the closed span. -/
theorem OPTgen.label_Hit_iff_lt (g : OPTgen) (hwf : g.WF) (a : Nat) (last : Int)
    (hl : mapFind g.LastVisitedTime a = some last) :
    (g.TimeStampInc a).2 = Status.Hit ↔
      ∀ t : Nat, last ≤ (t : Int) → (t : Int) ≤ g.TimeStamp + 1 →
        (g.Capacity ++ [0]).getD t 0 < g.CacheSize := by
  have h0 := (hwf.2.1 a last hl).1
  rw [OPTgen.label_Hit_iff]
  constructor
  · rintro ⟨last1, hl1, hs⟩ t ht1 ht2
    rw [hl] at hl1
    cases hl1
    have hle := hwf.slot_le t
    have hne : (g.Capacity ++ [0]).getD t 0 ≠ g.CacheSize := by
      intro heq
      have : spanSaturated (g.Capacity ++ [0]) g.CacheSize last (g.TimeStamp + 1) = true :=
        (spanSaturated_iff _ _ _ _).2 ⟨(t : Int), ht1, ht2, by simpa using heq⟩
      rw [hs] at this
      exact Bool.false_ne_true this
    omega
  · intro hall
    refine ⟨last, hl, ?_⟩
    cases hs : spanSaturated (g.Capacity ++ [0]) g.CacheSize last (g.TimeStamp + 1) with
    | false => rfl
    | true =>
      obtain ⟨i, h1, h2, h3⟩ := (spanSaturated_iff _ _ _ _).1 hs
      have := hall i.toNat (by omega) (by omega)
      omega

theorem OPTgen.label_cases (g : OPTgen) (a : Nat) (last : Int)
    (hl : mapFind g.LastVisitedTime a = some last) :
    ((g.TimeStampInc a).2 = Status.Hit ∨ (g.TimeStampInc a).2 = Status.Miss) ∧
      (g.TimeStampInc a).2 ≠ Status.FirstAppear := by
  rw [OPTgen.TimeStampInc_label, hl]
  simp only
  split_ifs <;> simp

theorem OPTgen.label_FirstAppear_iff (g : OPTgen) (a : Nat) :
    (g.TimeStampInc a).2 = Status.FirstAppear ↔ mapFind g.LastVisitedTime a = none := by
  cases hl : mapFind g.LastVisitedTime a with
  | none =>
    rw [OPTgen.TimeStampInc_label, hl]
    simp
  | some last =>
    have := (OPTgen.label_cases g a last hl).2
    simp [this]

/-- C12: in every oracle state reached from a fresh `OPTgen` by a stream
`pre`, `TimeStampInc id` returns `FirstAppear` exactly when `id` does not occur
in `pre`; otherwise the recorded previous access time is the position `last` of
the last occurrence of `id`, the label is `Hit` exactly when every slot with
index from `last` through the new clock value `pre.length` (the freshly
appended zero slot included) is strictly below `CacheSize`, and `Miss`
exactly when it is not. -/
theorem C12_classification (cache_size : Nat) (pre : List Nat) (id : Nat) :
    ((((OPTgen.new cache_size).feed pre).TimeStampInc id).2 = Status.FirstAppear ↔ id ∉ pre) ∧
    ((((OPTgen.new cache_size).feed pre).TimeStampInc id).1.TimeStamp = pre.length) ∧
    (id ∈ pre → ∃ last : Nat,
      mapFind ((OPTgen.new cache_size).feed pre).LastVisitedTime id = some (last : Int) ∧
      pre[last]? = some id ∧ (∀ j, last < j → pre[j]? ≠ some id) ∧
      ((((OPTgen.new cache_size).feed pre).TimeStampInc id).2 = Status.Hit ↔
        ∀ t : Nat, last ≤ t → t ≤ pre.length →
          (((OPTgen.new cache_size).feed pre).Capacity ++ [0]).getD t 0 < cache_size) ∧
      ((((OPTgen.new cache_size).feed pre).TimeStampInc id).2 = Status.Miss ↔
        ¬ ∀ t : Nat, last ≤ t → t ≤ pre.length →
          (((OPTgen.new cache_size).feed pre).Capacity ++ [0]).getD t 0 < cache_size)) := by
  have hwf := OPTgen.WF_feed pre _ (OPTgen.WF_new cache_size)
  have hT := OPTgen.new_feed_TimeStamp cache_size pre
  have hcs : ((OPTgen.new cache_size).feed pre).CacheSize = cache_size := by
    rw [OPTgen.feed_CacheSize]
    rfl
  refine ⟨?_, ?_, ?_⟩
  · rw [OPTgen.label_FirstAppear_iff, OPTgen.feed_LastVisitedTime_none]
  · rw [OPTgen.TimeStampInc_TimeStamp, hT]
  · intro hmem
    cases hl : mapFind ((OPTgen.new cache_size).feed pre).LastVisitedTime id with
    | none => exact absurd hmem ((OPTgen.feed_LastVisitedTime_none cache_size pre id).1 hl)
    | some t =>
      obtain ⟨h0, h1, h2⟩ := OPTgen.feed_LastVisitedTime_some cache_size pre id t hl
      have ht : ((t.toNat : Nat) : Int) = t := Int.toNat_of_nonneg h0
      have hiff := OPTgen.label_Hit_iff_lt _ hwf id t hl
      rw [hcs, hT] at hiff
      have hiff2 : (((OPTgen.new cache_size).feed pre).TimeStampInc id).2 = Status.Hit ↔
          ∀ u : Nat, t.toNat ≤ u → u ≤ pre.length →
            (((OPTgen.new cache_size).feed pre).Capacity ++ [0]).getD u 0 < cache_size := by
        rw [hiff]
        constructor
        · intro h u hu1 hu2
          exact h u (by omega) (by omega)
        · intro h u hu1 hu2
          exact h u (by omega) (by omega)
      refine ⟨t.toNat, by rw [ht], h1, h2, hiff2, ?_⟩
      rw [← hiff2]
      obtain ⟨hc1, hc2⟩ := OPTgen.label_cases _ id t hl
      constructor
      · intro hm hh
        rw [hm] at hh
        cases hh
      · intro hn
        rcases hc1 with hh | hm
        · exact absurd hh hn
        · exact hm

/-- C13: for a call `TimeStampInc id` in a state reached from a fresh
`OPTgen` (capacity a `uint64_t` value), the clock advances by exactly one and
one slot is appended; on `Hit` every slot with index in
`[previous access time of id, new clock]` is the old value (0 for the appended
slot) plus exactly 1 and every other slot is unchanged; on `Miss` or
`FirstAppear` the slots are the old ones followed by the zero slot; in all
cases `LastVisitedTime[id]` becomes the new clock value and no other recorded
time changes. -/
theorem C13_state_update (cache_size : Nat) (hcs : cache_size < 2 ^ 64) (pre : List Nat)
    (id : Nat) :
    (((OPTgen.new cache_size).feed pre).TimeStampInc id).1.TimeStamp =
        ((OPTgen.new cache_size).feed pre).TimeStamp + 1 ∧
    (((OPTgen.new cache_size).feed pre).TimeStampInc id).1.Capacity.length =
        ((OPTgen.new cache_size).feed pre).Capacity.length + 1 ∧
    ((((OPTgen.new cache_size).feed pre).TimeStampInc id).2 = Status.Hit →
      ∃ last : Nat,
        mapFind ((OPTgen.new cache_size).feed pre).LastVisitedTime id = some (last : Int) ∧
        ∀ t : Nat, (((OPTgen.new cache_size).feed pre).TimeStampInc id).1.Capacity.getD t 0 =
          if last ≤ t ∧ t ≤ pre.length
          then (((OPTgen.new cache_size).feed pre).Capacity ++ [0]).getD t 0 + 1
          else (((OPTgen.new cache_size).feed pre).Capacity ++ [0]).getD t 0) ∧
    ((((OPTgen.new cache_size).feed pre).TimeStampInc id).2 ≠ Status.Hit →
      (((OPTgen.new cache_size).feed pre).TimeStampInc id).1.Capacity =
        ((OPTgen.new cache_size).feed pre).Capacity ++ [0]) ∧
    mapFind (((OPTgen.new cache_size).feed pre).TimeStampInc id).1.LastVisitedTime id =
      some (((OPTgen.new cache_size).feed pre).TimeStamp + 1) ∧
    (∀ k, k ≠ id →
      mapFind (((OPTgen.new cache_size).feed pre).TimeStampInc id).1.LastVisitedTime k =
        mapFind ((OPTgen.new cache_size).feed pre).LastVisitedTime k) ∧
    (((OPTgen.new cache_size).feed pre).TimeStampInc id).1.CacheSize = cache_size := by
  have hwf := OPTgen.WF_feed pre _ (OPTgen.WF_new cache_size)
  have hwf1 := OPTgen.WF_TimeStampInc _ hwf id
  have hT := OPTgen.new_feed_TimeStamp cache_size pre
  have hcs1 : ((OPTgen.new cache_size).feed pre).CacheSize = cache_size := by
    rw [OPTgen.feed_CacheSize]
    rfl
  generalize (OPTgen.new cache_size).feed pre = g at hwf hwf1 hT hcs1 ⊢
  refine ⟨rfl, ?_, ?_, ?_, ?_, ?_, hcs1⟩
  · have h1 := hwf1.1
    have h0 := hwf.1
    rw [OPTgen.TimeStampInc_TimeStamp] at h1
    omega
  · intro hH
    obtain ⟨last, hl, -⟩ := (OPTgen.label_Hit_iff g id).1 hH
    have hb := hwf.2.1 id last hl
    have hlt := (OPTgen.label_Hit_iff_lt g hwf id last hl).1 hH
    refine ⟨last.toNat, by rw [Int.toNat_of_nonneg hb.1]; exact hl, fun t => ?_⟩
    rw [OPTgen.TimeStampInc_Capacity, if_pos hH, hl, Option.getD_some,
      incSpan_getD _ _ _ hb.1]
    have hlen : (g.Capacity ++ [0]).length = pre.length + 1 := by
      have h0 := hwf.1
      simp only [List.length_append, List.length_singleton]
      omega
    by_cases hin : last.toNat ≤ t ∧ t ≤ pre.length
    · have hin2 : last ≤ (t : Int) ∧ (t : Int) ≤ g.TimeStamp + 1 ∧
          t < (g.Capacity ++ [0]).length := by
        refine ⟨by omega, by omega, by omega⟩
      rw [if_pos hin, if_pos hin2]
      have := hlt t hin2.1 hin2.2.1
      exact Nat.mod_eq_of_lt (by omega)
    · have hin2 : ¬ (last ≤ (t : Int) ∧ (t : Int) ≤ g.TimeStamp + 1 ∧
          t < (g.Capacity ++ [0]).length) := by
        intro h
        apply hin
        omega
      rw [if_neg hin, if_neg hin2]
  · intro hH
    rw [OPTgen.TimeStampInc_Capacity, if_neg hH]
  · rw [OPTgen.TimeStampInc_LastVisitedTime, mapFind_mapSet_self]
  · intro k hk
    rw [OPTgen.TimeStampInc_LastVisitedTime, mapFind_mapSet_ne _ _ _ _ (fun e => hk e.symm)]

/-- C13, instance: capacity 2, the state after `[7]`, and a second access to
object 7, which is a `Hit` raising both slots to 1. -/
theorem C13_state_update_witness :
    (((OPTgen.new 2).feed [7]).TimeStampInc 7).2 = Status.Hit ∧
    (((OPTgen.new 2).feed [7]).TimeStampInc 7).1.Capacity = [1, 1] ∧
    (((OPTgen.new 2).feed [7]).TimeStampInc 7).1.TimeStamp = ((OPTgen.new 2).feed [7]).TimeStamp + 1 ∧
    mapFind (((OPTgen.new 2).feed [7]).TimeStampInc 7).1.LastVisitedTime 7 =
      some (((OPTgen.new 2).feed [7]).TimeStamp + 1) :=
  ⟨by decide, by decide, (C13_state_update 2 (by decide) [7] 7).1,
    (C13_state_update 2 (by decide) [7] 7).2.2.2.2.1⟩

/-! ## The interleaved loop as two passes -/

theorem trainStep_snd (status : Status) (acc : Int × List (Nat × Int)) (v : Nat) :
    (trainStep status acc v).2 = trainOne status acc.2 v := by
  unfold trainStep trainOne
  cases hf : mapFind acc.2 v <;> simp only <;> split_ifs <;> rfl

theorem trainStep_fst (status : Status) (acc : Int × List (Nat × Int)) (v : Nat) :
    (trainStep status acc v).1 = acc.1 + (mapFind acc.2 v).getD 0 := by
  unfold trainStep
  cases hf : mapFind acc.2 v <;> simp only <;> split_ifs <;> simp

theorem mapFind_trainOne_ne (status : Status) (weights : List (Nat × Int)) (v u : Nat)
    (h : v ≠ u) : mapFind (trainOne status weights v) u = mapFind weights u := by
  unfold trainOne
  cases hf : mapFind weights v <;> simp only <;> split_ifs <;>
    simp only [mapFind_mapSet_ne _ _ _ _ h]

theorem score_trainOne (status : Status) (weights : List (Nat × Int)) (v : Nat)
    (contexts : List Nat) (h : v ∉ contexts) :
    score (trainOne status weights v) contexts = score weights contexts := by
  unfold score
  congr 1
  apply List.map_congr_left
  intro c hc
  rw [mapFind_trainOne_ne status weights v c (fun e => h (e ▸ hc))]

theorem foldl_trainStep_eq (status : Status) (contexts : List Nat) (hn : contexts.Nodup)
    (acc : Int × List (Nat × Int)) :
    contexts.foldl (trainStep status) acc =
      (acc.1 + score acc.2 contexts, train status acc.2 contexts) := by
  induction contexts generalizing acc with
  | nil => simp [score, train]
  | cons v vs ih =>
    obtain ⟨hv, hvs⟩ := List.nodup_cons.1 hn
    rw [List.foldl_cons, ih hvs, trainStep_snd, trainStep_fst, score_trainOne status _ v vs hv]
    simp only [score, train, List.map_cons, List.sum_cons, List.foldl_cons]
    congr 1
    omega

/-- On a register without duplicates the interleaved loop of `run` is scoring
followed by training. -/
theorem trainLoop_eq_scoreThenTrain (status : Status) (contexts : List Nat)
    (hn : contexts.Nodup) (weights : List (Nat × Int)) :
    trainLoop status contexts weights = scoreThenTrain status contexts weights := by
  unfold trainLoop scoreThenTrain
  rw [foldl_trainStep_eq status contexts hn]
  simp

/-! ## What `Delete`, `Insert` and one access change -/

theorem weights_of_payload (o1 o2 : Option SVMObject)
    (h : o1.map SVMObject.payload = o2.map SVMObject.payload) :
    o1.map (fun r => r.weights) = o2.map (fun r => r.weights) := by
  have := congrArg (Option.map (fun p : Nat × Nat × Int × List (Nat × Int) => p.2.2.2)) h
  simpa [Option.map_map, Function.comp, SVMObject.payload] using this

theorem isSome_of_payload (o1 o2 : Option SVMObject)
    (h : o1.map SVMObject.payload = o2.map SVMObject.payload) : o1.isSome = o2.isSome := by
  cases o1 <;> cases o2 <;> simp at h ⊢

theorem SVMScheduler.Delete_frame (s s1 : SVMScheduler) (h : s.Delete = some s1) :
    s1.Gen = s.Gen ∧ s1.PCRegister = s.PCRegister ∧ s1.cache_size = s.cache_size ∧
      ∀ k, (mapFind s1.ObjInfo k).map SVMObject.payload =
        (mapFind s.ObjInfo k).map SVMObject.payload := by
  unfold SVMScheduler.Delete at h
  cases hC : s.Cache with
  | nil => simp [hC] at h
  | cons it rest =>
    cases hf : mapFind s.ObjInfo it.obj_id with
    | none => simp [hC, hf] at h
    | some rec =>
      simp only [hC, hf, Option.some.injEq] at h
      subst h
      refine ⟨rfl, rfl, rfl, fun k => ?_⟩
      simp only [mapFind_mapSet]
      by_cases e : it.obj_id = k
      · rw [if_pos e, ← e, hf]
        rfl
      · rw [if_neg e]

theorem SVMScheduler.InsertNew_frame (s s1 : SVMScheduler) (id t : Nat) (cf : Int)
    (h : s.InsertNew id t cf = some s1) :
    s1.Gen = s.Gen ∧ s1.PCRegister = s.PCRegister ∧ s1.cache_size = s.cache_size ∧
      (∃ rec1, mapFind s1.ObjInfo id = some rec1 ∧ rec1.IsInCache = true ∧
        rec1.LastVisitedTime = t ∧ rec1.CacheFriend = cf ∧
        rec1.weights = (s.weightsOf id).getD []) ∧
      ∀ k, k ≠ id → (mapFind s1.ObjInfo k).map SVMObject.payload =
        (mapFind s.ObjInfo k).map SVMObject.payload := by
  unfold SVMScheduler.InsertNew at h
  cases hr : (if s.Cache.length = s.cache_size then s.Delete else some s) with
  | none => simp [hr] at h
  | some s0 =>
    have h0 : s0.Gen = s.Gen ∧ s0.PCRegister = s.PCRegister ∧ s0.cache_size = s.cache_size ∧
        ∀ k, (mapFind s0.ObjInfo k).map SVMObject.payload =
          (mapFind s.ObjInfo k).map SVMObject.payload := by
      split_ifs at hr with hfull
      · exact s.Delete_frame s0 hr
      · cases hr
        exact ⟨rfl, rfl, rfl, fun _ => rfl⟩
    obtain ⟨g1, g2, g3, g4⟩ := h0
    have hw : s.weightsOf id = (mapFind s0.ObjInfo id).map (fun r => r.weights) :=
      (weights_of_payload _ _ (g4 id)).symm
    rw [hr] at h
    simp only [Option.some_bind] at h
    cases hf : mapFind s0.ObjInfo id with
    | none =>
      simp only [hf, Option.some.injEq] at h
      subst h
      refine ⟨g1, g2, g3, ⟨_, mapFind_mapSet_self _ _ _, rfl, rfl, rfl, ?_⟩, fun k hk => ?_⟩
      · rw [hw, hf]
        rfl
      · simp only
        rw [mapFind_mapSet_ne _ _ _ _ (fun e => hk e.symm)]
        exact g4 k
    | some rec =>
      simp only [hf, Option.some.injEq] at h
      subst h
      refine ⟨g1, g2, g3, ⟨_, mapFind_mapSet_self _ _ _, rfl, rfl, rfl, ?_⟩, fun k hk => ?_⟩
      · rw [hw, hf]
        rfl
      · simp only
        rw [mapFind_mapSet_ne _ _ _ _ (fun e => hk e.symm)]
        exact g4 k

theorem SVMScheduler.Insert_frame (s s1 : SVMScheduler) (id t : Nat) (cf : Int)
    (h : s.Insert id t cf = some s1) :
    s1.Gen = s.Gen ∧ s1.PCRegister = s.PCRegister ∧ s1.cache_size = s.cache_size ∧
      (∃ rec1, mapFind s1.ObjInfo id = some rec1 ∧ rec1.IsInCache = true ∧
        rec1.LastVisitedTime = t ∧ rec1.CacheFriend = cf ∧
        rec1.weights = (s.weightsOf id).getD []) ∧
      ∀ k, k ≠ id → (mapFind s1.ObjInfo k).map SVMObject.payload =
        (mapFind s.ObjInfo k).map SVMObject.payload := by
  unfold SVMScheduler.Insert at h
  cases hf : mapFind s.ObjInfo id with
  | none =>
    simp only [hf] at h
    exact s.InsertNew_frame s1 id t cf h
  | some rec =>
    simp only [hf] at h
    split_ifs at h with hflag
    · cases hs : setFind s.Cache ⟨id, rec.LastVisitedTime, rec.CacheFriend⟩ with
      | none => simp [hs] at h
      | some old =>
        simp only [hs, Option.some.injEq] at h
        subst h
        refine ⟨rfl, rfl, rfl, ⟨_, mapFind_mapSet_self _ _ _, rfl, rfl, rfl, ?_⟩,
          fun k hk => ?_⟩
        · simp only [SVMScheduler.weightsOf, hf]
          rfl
        · simp only
          rw [mapFind_mapSet_ne _ _ _ _ (fun e => hk e.symm)]
    · exact s.InsertNew_frame s1 id t cf h

/-- What one access of `run` does to the engine and to the report. -/
theorem SVMScheduler.access_frame (s : SVMScheduler) (result : Result) (id : Nat)
    (sr : SVMScheduler × Result) (h : s.access result id = some sr) :
    sr.1.Gen = (s.Gen.TimeStampInc id).1 ∧ sr.1.PCRegister = s.PCRegister.Insert id ∧
      sr.1.cache_size = s.cache_size ∧
      sr.2 = (if s.CheckInCache id = true then result
        else { result with cache_misses := result.cache_misses + 1 }) ∧
      (∃ rec1, mapFind sr.1.ObjInfo id = some rec1 ∧ rec1.IsInCache = true ∧
        rec1.LastVisitedTime = (s.Gen.TimeStampInc id).1.TimeStamp.toNat ∧
        rec1.CacheFriend = s.prediction (s.Gen.TimeStampInc id).2 id ∧
        rec1.weights = (s.trained (s.Gen.TimeStampInc id).2 id).getD []) ∧
      ∀ k, k ≠ id → (mapFind sr.1.ObjInfo k).map SVMObject.payload =
        (mapFind s.ObjInfo k).map SVMObject.payload := by
  rw [SVMScheduler.access_eq] at h
  have hres : (if (!s.CheckInCache id) = true
      then { result with cache_misses := result.cache_misses + 1 } else result) =
      (if s.CheckInCache id = true then result
        else { result with cache_misses := result.cache_misses + 1 }) := by
    cases s.CheckInCache id <;> simp
  rw [hres] at h
  unfold SVMScheduler.prediction SVMScheduler.trained
  cases hf : mapFind s.ObjInfo id with
  | none =>
    rw [hf] at h
    simp only at h ⊢
    cases hi : SVMScheduler.Insert
        { s with Gen := (s.Gen.TimeStampInc id).1, ObjInfo := s.ObjInfo } id
        (s.Gen.TimeStampInc id).1.TimeStamp.toNat 0 with
    | none => simp [hi] at h
    | some s1 =>
      rw [hi] at h
      simp only [Option.some_bind, Option.some.injEq] at h
      subst h
      obtain ⟨f1, f2, f3, ⟨rec1, r1, r2, r3, r4, r5⟩, f5⟩ := SVMScheduler.Insert_frame _ s1 _ _ _ hi
      refine ⟨f1, by simp only [f2], f3, rfl, ⟨rec1, r1, r2, r3, r4, ?_⟩, f5⟩
      rw [r5]
      simp [SVMScheduler.weightsOf, hf]
  | some rec =>
    rw [hf] at h
    simp only at h ⊢
    cases hi : SVMScheduler.Insert
        { s with
          Gen := (s.Gen.TimeStampInc id).1
          ObjInfo := mapSet s.ObjInfo id
            { rec with weights :=
                (trainLoop (s.Gen.TimeStampInc id).2 s.PCRegister.elements rec.weights).2 } }
        id (s.Gen.TimeStampInc id).1.TimeStamp.toNat
        (trainLoop (s.Gen.TimeStampInc id).2 s.PCRegister.elements rec.weights).1 with
    | none => simp [hi] at h
    | some s1 =>
      rw [hi] at h
      simp only [Option.some_bind, Option.some.injEq] at h
      subst h
      obtain ⟨f1, f2, f3, ⟨rec1, r1, r2, r3, r4, r5⟩, f5⟩ := SVMScheduler.Insert_frame _ s1 _ _ _ hi
      refine ⟨f1, by simp only [f2], f3, rfl, ⟨rec1, r1, r2, r3, r4, ?_⟩, fun k hk => ?_⟩
      · rw [r5]
        simp [SVMScheduler.weightsOf, mapFind_mapSet_self]
      · rw [f5 k hk]
        simp only
        rw [mapFind_mapSet_ne _ _ _ _ (fun e => hk e.symm)]

/-- A property of engine states that every access preserves holds after
`runFrom`. -/
theorem SVMScheduler.runFrom_invariant (P : SVMScheduler → Prop)
    (hstep : ∀ s result id sr, P s → s.access result id = some sr → P sr.1)
    (requests : List Nat) (s : SVMScheduler) (result : Result) (sr : SVMScheduler × Result)
    (h0 : P s) (h : s.runFrom result requests = some sr) : P sr.1 := by
  induction requests generalizing s result with
  | nil =>
    simp only [SVMScheduler.runFrom, Option.some.injEq] at h
    subst h
    exact h0
  | cons x xs ih =>
    unfold SVMScheduler.runFrom at h
    cases ha : s.access result x with
    | none => simp [ha] at h
    | some sr1 =>
      rw [ha] at h
      simp only [Option.some_bind] at h
      exact ih sr1.1 sr1.2 (hstep s result x sr1 h0 ha) h

/-- The oracle and the register of the engine after `runFrom`. -/
theorem SVMScheduler.runFrom_Gen (requests : List Nat) (s : SVMScheduler) (result : Result)
    (sr : SVMScheduler × Result) (h : s.runFrom result requests = some sr) :
    sr.1.Gen = s.Gen.feed requests ∧ sr.1.PCRegister = s.PCRegister.insertAll requests := by
  induction requests generalizing s result with
  | nil =>
    simp only [SVMScheduler.runFrom, Option.some.injEq] at h
    subst h
    exact ⟨rfl, rfl⟩
  | cons x xs ih =>
    unfold SVMScheduler.runFrom at h
    cases ha : s.access result x with
    | none => simp [ha] at h
    | some sr1 =>
      rw [ha] at h
      simp only [Option.some_bind] at h
      obtain ⟨f1, f2, -⟩ := s.access_frame result x sr1 ha
      obtain ⟨i1, i2⟩ := ih sr1.1 sr1.2 h
      rw [i1, i2, f1, f2]
      exact ⟨rfl, rfl⟩

/-! ## Bounds on the prediction and the facts of reachable states -/

theorem foldl_trainStep_fst_bound (status : Status) (contexts : List Nat)
    (acc : Int × List (Nat × Int)) (n : Nat) (hw : ∀ q ∈ acc.2, -31 ≤ q.2 ∧ q.2 ≤ 31)
    (hp : -31 * (n : Int) ≤ acc.1 ∧ acc.1 ≤ 31 * (n : Int)) :
    -31 * ((n + contexts.length : Nat) : Int) ≤ (contexts.foldl (trainStep status) acc).1 ∧
      (contexts.foldl (trainStep status) acc).1 ≤ 31 * ((n + contexts.length : Nat) : Int) := by
  induction contexts generalizing acc n with
  | nil => simpa using hp
  | cons v vs ih =>
    have hg : -31 ≤ (mapFind acc.2 v).getD 0 ∧ (mapFind acc.2 v).getD 0 ≤ 31 := by
      cases hf : mapFind acc.2 v with
      | none => simp
      | some w => exact hw (v, w) (mapFind_mem acc.2 v w hf)
    have h1 := trainStep_fst status acc v
    have := ih (trainStep status acc v) (n + 1) (trainStep_within status acc v hw)
      (by rw [h1]; push_cast; omega)
    rw [List.foldl_cons]
    have e : n + 1 + vs.length = n + (v :: vs).length := by
      simp only [List.length_cons]
      omega
    rw [e] at this
    exact this

theorem SVMScheduler.prediction_bound (s : SVMScheduler) (hw : WeightsWithin (-31) 31 s.ObjInfo)
    (hl : s.PCRegister.elements.length ≤ PCHR.PCHRSize) (status : Status) (id : Nat) :
    -155 ≤ s.prediction status id ∧ s.prediction status id ≤ 155 := by
  unfold SVMScheduler.prediction
  cases hf : mapFind s.ObjInfo id with
  | none => simp
  | some rec =>
    simp only
    have := foldl_trainStep_fst_bound status s.PCRegister.elements (0, rec.weights) 0
      (hw.of_find id rec hf) (by simp)
    unfold trainLoop
    simp only [PCHR.PCHRSize] at hl
    push_cast at this
    omega

theorem exists_of_payload (o : Option SVMObject) (rec1 : SVMObject)
    (h : (some rec1).map SVMObject.payload = o.map SVMObject.payload) :
    ∃ rec, o = some rec ∧ rec.CacheFriend = rec1.CacheFriend ∧ rec.weights = rec1.weights := by
  cases o with
  | none => simp at h
  | some rec =>
    simp only [Option.map_some', Option.some.injEq, SVMObject.payload, Prod.mk.injEq] at h
    exact ⟨rec, rfl, h.2.2.1.symm, h.2.2.2.symm⟩

theorem SVMScheduler.Reach_new (cache_size : Nat) : (SVMScheduler.new cache_size).Reach := by
  refine ⟨fun k => rfl, ?_, ?_, ?_, ?_, OPTgen.WF_new cache_size⟩
  · intro k rec h
    simp [SVMScheduler.new, mapFind] at h
  · intro p hp
    simp [SVMScheduler.new] at hp
  · simp [SVMScheduler.new, PCHR.new]
  · simp [SVMScheduler.new, PCHR.new]

theorem SVMScheduler.Reach_access (s : SVMScheduler) (result : Result) (id : Nat)
    (sr : SVMScheduler × Result) (h0 : s.Reach) (h : s.access result id = some sr) :
    sr.1.Reach := by
  obtain ⟨k1, k2, k3, k4, k5, k6⟩ := h0
  obtain ⟨f1, f2, -, -, ⟨rec1, r1, -, -, r4, -⟩, f5⟩ := s.access_frame result id sr h
  refine ⟨fun k => ?_, fun k rec hk => ?_, s.access_weights result id sr h k3, ?_, ?_, ?_⟩
  · rw [f1, OPTgen.TimeStampInc_LastVisitedTime, mapFind_mapSet]
    by_cases e : id = k
    · subst e
      rw [r1, if_pos rfl]
      rfl
    · rw [if_neg e, isSome_of_payload _ _ (f5 k (fun e1 => e e1.symm))]
      exact k1 k
  · by_cases e : k = id
    · subst e
      rw [r1] at hk
      cases hk
      rw [r4]
      exact s.prediction_bound k3 k4 _ k
    · have hp := f5 k e
      rw [hk] at hp
      obtain ⟨rec0, g1, g2, -⟩ := exists_of_payload _ rec hp
      rw [← g2]
      exact k2 k rec0 g1
  · rw [f2]
    exact PCHR.Insert_length_le _ id k4
  · rw [f2]
    exact PCHR.Insert_nodup _ id k5
  · rw [f1]
    exact OPTgen.WF_TimeStampInc _ k6 id

/-- For every capacity `≥ 1` and every stream `run` returns; the final state
satisfies the engine invariant and the facts of reachable states, its oracle is
the oracle fed with the stream and its register the register after inserting
the stream. -/
theorem SVMScheduler.run_Reach (cache_size : Nat) (hcs : 1 ≤ cache_size) (requests : List Nat) :
    ∃ sr, (SVMScheduler.new cache_size).run requests = some sr ∧ sr.1.Inv ∧ sr.1.Reach ∧
      sr.1.cache_size = cache_size ∧ sr.1.Gen = (OPTgen.new cache_size).feed requests ∧
      sr.1.PCRegister = PCHR.new.insertAll requests := by
  obtain ⟨sr, h1, h2, h3, -⟩ := SVMScheduler.run_Inv cache_size hcs requests
  have hr := SVMScheduler.runFrom_invariant SVMScheduler.Reach
    (fun s result id sr1 => SVMScheduler.Reach_access s result id sr1) requests _ _ sr
    (SVMScheduler.Reach_new cache_size) h1
  obtain ⟨g1, g2⟩ := SVMScheduler.runFrom_Gen requests _ _ sr h1
  exact ⟨sr, h1, h2, hr, h3, g1, g2⟩

/-- The report does not influence the engine state of an access. -/
theorem SVMScheduler.access_result (s : SVMScheduler) (r r2 : Result) (id : Nat)
    (sr : SVMScheduler × Result) (h : s.access r id = some sr) :
    s.access r2 id = some (sr.1, if s.CheckInCache id = true then r2
      else { r2 with cache_misses := r2.cache_misses + 1 }) := by
  rw [SVMScheduler.access_eq, Option.bind_eq_some] at h
  rw [SVMScheduler.access_eq, Option.bind_eq_some]
  obtain ⟨s1, hi, he⟩ := h
  refine ⟨s1, hi, ?_⟩
  simp only [Option.some.injEq] at he
  subst he
  cases s.CheckInCache id <;> simp

/-- Running with another report yields the same engine state and counts the
same number of misses. -/
theorem SVMScheduler.runFrom_result (requests : List Nat) (s : SVMScheduler) (r : Result)
    (sr : SVMScheduler × Result) (h : s.runFrom r requests = some sr) :
    ∃ m, sr.2 = { r with cache_misses := r.cache_misses + m } ∧
      ∀ r2 : Result, s.runFrom r2 requests =
        some (sr.1, { r2 with cache_misses := r2.cache_misses + m }) := by
  induction requests generalizing s r with
  | nil =>
    simp only [SVMScheduler.runFrom, Option.some.injEq] at h
    subst h
    exact ⟨0, rfl, fun r2 => rfl⟩
  | cons x xs ih =>
    unfold SVMScheduler.runFrom at h
    cases ha : s.access r x with
    | none => simp [ha] at h
    | some sr1 =>
      rw [ha] at h
      simp only [Option.some_bind] at h
      obtain ⟨m, e1, e2⟩ := ih sr1.1 sr1.2 h
      have hr1 := (s.access_frame r x sr1 ha).2.2.2.1
      by_cases hc : s.CheckInCache x = true
      · rw [if_pos hc] at hr1
        refine ⟨m, by rw [e1, hr1], fun r2 => ?_⟩
        unfold SVMScheduler.runFrom
        rw [s.access_result r r2 x sr1 ha, if_pos hc]
        simp only [Option.some_bind]
        obtain ⟨m2, -, e4⟩ := ih sr1.1 sr1.2 h
        rw [e2 r2]
      · rw [if_neg hc] at hr1
        refine ⟨1 + m, ?_, fun r2 => ?_⟩
        · rw [e1, hr1]
          simp only [Result.mk.injEq, true_and]
          omega
        · unfold SVMScheduler.runFrom
          rw [s.access_result r r2 x sr1 ha, if_neg hc]
          simp only [Option.some_bind]
          rw [e2]
          simp only [Option.some.injEq, Prod.mk.injEq, Result.mk.injEq, true_and]
          omega

theorem SVMScheduler.runFrom_singleton (s : SVMScheduler) (r : Result) (id : Nat) :
    s.runFrom r [id] = s.access r id := by
  unfold SVMScheduler.runFrom
  cases s.access r id with
  | none => rfl
  | some sr => rfl

/-! ## Claims on scoring, training and admission -/

/-- C14: in every state reached by `run` (capacity `≥ 1`) the register holds
no id twice, so the interleaved loop equals scoring over the whole register
snapshot followed by training over the same snapshot; for an access to an
object that has a record, the prediction handed to `Insert` is the sum over the
register, as it stood before the access, of the object's weights as they stood
before the access (0 for a context without entry), and the weights handed on
are those of the separate training pass. -/
theorem C14_score_then_train (cache_size : Nat) (hcs : 1 ≤ cache_size) (pre : List Nat)
    (id : Nat) :
    ∃ sr, (SVMScheduler.new cache_size).run pre = some sr ∧
      (∀ status weights, trainLoop status sr.1.PCRegister.elements weights =
        scoreThenTrain status sr.1.PCRegister.elements weights) ∧
      (∀ rec, mapFind sr.1.ObjInfo id = some rec →
        sr.1.prediction (sr.1.Gen.TimeStampInc id).2 id =
          ((sr.1.PCRegister.elements).map fun c => (mapFind rec.weights c).getD 0).sum ∧
        sr.1.trained (sr.1.Gen.TimeStampInc id).2 id =
          some (train (sr.1.Gen.TimeStampInc id).2 rec.weights sr.1.PCRegister.elements) ∧
        sr.1.access sr.2 id =
          (SVMScheduler.Insert
            { sr.1 with
              Gen := (sr.1.Gen.TimeStampInc id).1
              ObjInfo := mapSet sr.1.ObjInfo id
                { rec with weights :=
                    (train (sr.1.Gen.TimeStampInc id).2 rec.weights
                      sr.1.PCRegister.elements) } }
            id (sr.1.Gen.TimeStampInc id).1.TimeStamp.toNat
            (score rec.weights sr.1.PCRegister.elements)).bind
            fun s1 => some ({ s1 with PCRegister := s1.PCRegister.Insert id },
              if (!sr.1.CheckInCache id) = true
              then { sr.2 with cache_misses := sr.2.cache_misses + 1 } else sr.2)) := by
  obtain ⟨sr, h1, -, hr, -, -, -⟩ := SVMScheduler.run_Reach cache_size hcs pre
  have hn := hr.2.2.2.2.1
  refine ⟨sr, h1, fun status weights => trainLoop_eq_scoreThenTrain status _ hn weights,
    fun rec hf => ?_⟩
  have heq := trainLoop_eq_scoreThenTrain (sr.1.Gen.TimeStampInc id).2 _ hn rec.weights
  refine ⟨?_, ?_, ?_⟩
  · simp only [SVMScheduler.prediction, hf, heq, scoreThenTrain, score]
  · simp only [SVMScheduler.trained, hf, heq, scoreThenTrain]
  · rw [SVMScheduler.access_eq, hf]
    simp only [heq, scoreThenTrain]

/-- C14, instance: capacity 2, the state after `[1, 2, 3]` and an access to
object 1, which has a record. -/
theorem C14_score_then_train_witness :
    ((SVMScheduler.new 2).run [1, 2, 3]).map
        (fun sr => (sr.1.PCRegister.elements, sr.1.weightsOf 1)) = some ([3, 2, 1], some []) ∧
    ∃ sr, (SVMScheduler.new 2).run [1, 2, 3] = some sr ∧
      (∀ status weights, trainLoop status sr.1.PCRegister.elements weights =
        scoreThenTrain status sr.1.PCRegister.elements weights) ∧
      (∀ rec, mapFind sr.1.ObjInfo 1 = some rec →
        sr.1.prediction (sr.1.Gen.TimeStampInc 1).2 1 =
          ((sr.1.PCRegister.elements).map fun c => (mapFind rec.weights c).getD 0).sum ∧
        sr.1.trained (sr.1.Gen.TimeStampInc 1).2 1 =
          some (train (sr.1.Gen.TimeStampInc 1).2 rec.weights sr.1.PCRegister.elements) ∧
        sr.1.access sr.2 1 =
          (SVMScheduler.Insert
            { sr.1 with
              Gen := (sr.1.Gen.TimeStampInc 1).1
              ObjInfo := mapSet sr.1.ObjInfo 1
                { rec with weights :=
                    (train (sr.1.Gen.TimeStampInc 1).2 rec.weights
                      sr.1.PCRegister.elements) } }
            1 (sr.1.Gen.TimeStampInc 1).1.TimeStamp.toNat
            (score rec.weights sr.1.PCRegister.elements)).bind
            fun s1 => some ({ s1 with PCRegister := s1.PCRegister.Insert 1 },
              if (!sr.1.CheckInCache 1) = true
              then { sr.2 with cache_misses := sr.2.cache_misses + 1 } else sr.2)) :=
  ⟨by decide, C14_score_then_train 2 (by decide) [1, 2, 3] 1⟩

/-- C15: for every capacity `≥ 1` and every stream `pre`, in the state reached
by `run` the ids with an `ObjInfo` record are exactly the ids the oracle has
seen, which are the ids of `pre`; the oracle labels the next access
`FirstAppear` exactly when the accessed object has no record, so an object
with a record is labelled `Hit` or `Miss`; and on a `FirstAppear` access the
prediction is 0, the new record gets priority 0 and an empty weight map, and
the weight map of every other object is unchanged. -/
theorem C15_first_appearance (cache_size : Nat) (hcs : 1 ≤ cache_size) (pre : List Nat)
    (id : Nat) :
    ∃ sr, (SVMScheduler.new cache_size).run pre = some sr ∧
      (∀ k, (mapFind sr.1.ObjInfo k).isSome = (mapFind sr.1.Gen.LastVisitedTime k).isSome) ∧
      (∀ k, mapFind sr.1.ObjInfo k ≠ none ↔ k ∈ pre) ∧
      ((sr.1.Gen.TimeStampInc id).2 = Status.FirstAppear ↔ mapFind sr.1.ObjInfo id = none) ∧
      (mapFind sr.1.ObjInfo id ≠ none →
        (sr.1.Gen.TimeStampInc id).2 = Status.Hit ∨
          (sr.1.Gen.TimeStampInc id).2 = Status.Miss) ∧
      ((sr.1.Gen.TimeStampInc id).2 = Status.FirstAppear →
        sr.1.prediction (sr.1.Gen.TimeStampInc id).2 id = 0 ∧
        ∃ sr1, sr.1.access sr.2 id = some sr1 ∧ sr1.1.weightsOf id = some [] ∧
          (∃ rec1, mapFind sr1.1.ObjInfo id = some rec1 ∧ rec1.CacheFriend = 0) ∧
          ∀ k, k ≠ id → sr1.1.weightsOf k = sr.1.weightsOf k) := by
  obtain ⟨sr, h1, hinv, hr, hsz, hgen, -⟩ := SVMScheduler.run_Reach cache_size hcs pre
  have hkeys := hr.1
  have hnone : ∀ k, mapFind sr.1.ObjInfo k = none ↔ mapFind sr.1.Gen.LastVisitedTime k = none := by
    intro k
    have := hkeys k
    cases h3 : mapFind sr.1.ObjInfo k <;> cases h4 : mapFind sr.1.Gen.LastVisitedTime k <;>
      simp [h3, h4] at this ⊢
  have hfa : (sr.1.Gen.TimeStampInc id).2 = Status.FirstAppear ↔
      mapFind sr.1.ObjInfo id = none := by
    rw [OPTgen.label_FirstAppear_iff, hnone]
  refine ⟨sr, h1, hkeys, fun k => ?_, hfa, fun hne => ?_, fun hlab => ?_⟩
  · rw [Ne, hnone, hgen, OPTgen.feed_LastVisitedTime_none]
    exact not_not
  · cases hl : mapFind sr.1.Gen.LastVisitedTime id with
    | none => exact absurd ((hnone id).2 hl) hne
    | some last => exact (OPTgen.label_cases _ id last hl).1
  · have hf := hfa.1 hlab
    obtain ⟨sr1, a1, -, -⟩ := sr.1.access_Inv hinv (by omega) sr.2 id
    obtain ⟨-, -, -, -, ⟨rec1, r1, -, -, r4, r5⟩, f5⟩ := sr.1.access_frame sr.2 id sr1 a1
    have hp : sr.1.prediction (sr.1.Gen.TimeStampInc id).2 id = 0 := by
      simp [SVMScheduler.prediction, hf]
    refine ⟨hp, sr1, a1, ?_, ⟨rec1, r1, by rw [r4, hp]⟩, fun k hk => ?_⟩
    · simp only [SVMScheduler.weightsOf, r1, Option.map_some', r5, SVMScheduler.trained, hf]
      rfl
    · exact weights_of_payload _ _ (f5 k hk)

/-- C15, instance: capacity 2, the state after `[1, 2]` and a first access to
object 3. -/
theorem C15_first_appearance_witness :
    ((SVMScheduler.new 2).run [1, 2]).map (fun sr => (sr.1.Gen.TimeStampInc 3).2)
        = some Status.FirstAppear ∧
    ∃ sr, (SVMScheduler.new 2).run [1, 2] = some sr ∧
      (∀ k, (mapFind sr.1.ObjInfo k).isSome = (mapFind sr.1.Gen.LastVisitedTime k).isSome) ∧
      (∀ k, mapFind sr.1.ObjInfo k ≠ none ↔ k ∈ [1, 2]) ∧
      ((sr.1.Gen.TimeStampInc 3).2 = Status.FirstAppear ↔ mapFind sr.1.ObjInfo 3 = none) ∧
      (mapFind sr.1.ObjInfo 3 ≠ none →
        (sr.1.Gen.TimeStampInc 3).2 = Status.Hit ∨
          (sr.1.Gen.TimeStampInc 3).2 = Status.Miss) ∧
      ((sr.1.Gen.TimeStampInc 3).2 = Status.FirstAppear →
        sr.1.prediction (sr.1.Gen.TimeStampInc 3).2 3 = 0 ∧
        ∃ sr1, sr.1.access sr.2 3 = some sr1 ∧ sr1.1.weightsOf 3 = some [] ∧
          (∃ rec1, mapFind sr1.1.ObjInfo 3 = some rec1 ∧ rec1.CacheFriend = 0) ∧
          ∀ k, k ≠ 3 → sr1.1.weightsOf k = sr.1.weightsOf k) :=
  ⟨by decide, C15_first_appearance 2 (by decide) [1, 2] 3⟩

/-- C16 (as stated, refuted): with capacity 2, after `[1, 2, 3]` object 1 has
a record with an empty weight map and is not resident; the next access to
object 1 changes its weight map to `[(3, 1), (2, 1), (1, 1)]`. -/
theorem C16_counterexample :
    ((SVMScheduler.new 2).run [1, 2, 3]).map
        (fun sr => (sr.1.CheckInCache 1, sr.1.weightsOf 1)) = some (false, some []) ∧
      ((SVMScheduler.new 2).run [1, 2, 3, 1]).map (fun sr => sr.1.weightsOf 1)
        = some (some [(3, 1), (2, 1), (1, 1)]) := by
  decide

/-- C16 (amended): for every capacity `≥ 1`, every stream and every access in
it, the weight map of every object other than the accessed one is the same
after the access as before it; if the accessed object has no record at the
moment of the access, its record is created with an empty weight map; if it
has a record, resident or not, its weight map becomes the result of the
training loop over the register. -/
theorem C16_weights_frame (cache_size : Nat) (hcs : 1 ≤ cache_size) (pre : List Nat)
    (id : Nat) :
    ∃ sr sr1, (SVMScheduler.new cache_size).run pre = some sr ∧
      sr.1.access sr.2 id = some sr1 ∧
      (∀ k, k ≠ id → sr1.1.weightsOf k = sr.1.weightsOf k) ∧
      (mapFind sr.1.ObjInfo id = none → sr1.1.weightsOf id = some []) ∧
      (∀ rec, mapFind sr.1.ObjInfo id = some rec →
        sr1.1.weightsOf id =
          some (trainLoop (sr.1.Gen.TimeStampInc id).2 sr.1.PCRegister.elements
            rec.weights).2) := by
  obtain ⟨sr, h1, hinv, -, hsz, -, -⟩ := SVMScheduler.run_Reach cache_size hcs pre
  obtain ⟨sr1, a1, -, -⟩ := sr.1.access_Inv hinv (by omega) sr.2 id
  obtain ⟨-, -, -, -, ⟨rec1, r1, -, -, -, r5⟩, f5⟩ := sr.1.access_frame sr.2 id sr1 a1
  refine ⟨sr, sr1, h1, a1, fun k hk => weights_of_payload _ _ (f5 k hk), fun hf => ?_,
    fun rec hf => ?_⟩
  · simp only [SVMScheduler.weightsOf, r1, Option.map_some', r5, SVMScheduler.trained, hf]
    rfl
  · simp only [SVMScheduler.weightsOf, r1, Option.map_some', r5, SVMScheduler.trained, hf]
    rfl

/-- C16 (amended), instance: capacity 2, the state after `[1, 2, 3]` and the
access to object 1, which has a record and is not resident. -/
theorem C16_weights_frame_witness :
    ∃ sr sr1, (SVMScheduler.new 2).run [1, 2, 3] = some sr ∧
      sr.1.access sr.2 1 = some sr1 ∧
      (∀ k, k ≠ 1 → sr1.1.weightsOf k = sr.1.weightsOf k) ∧
      (mapFind sr.1.ObjInfo 1 = none → sr1.1.weightsOf 1 = some []) ∧
      (∀ rec, mapFind sr.1.ObjInfo 1 = some rec →
        sr1.1.weightsOf 1 =
          some (trainLoop (sr.1.Gen.TimeStampInc 1).2 sr.1.PCRegister.elements
            rec.weights).2) :=
  C16_weights_frame 2 (by decide) [1, 2, 3] 1

/-- C19: for every capacity `≥ 1`, immediately after `run` has processed an
access to `id` (the last request of the stream `pre ++ [id]`), `id` is
resident: its record has `IsInCache` true, its triple is in `Cache`, and its
`LastVisitedTime` equals the oracle's current clock; an object that was
resident before the access and is not resident after it is never `id`; and an
immediately following access to the same `id` is not counted as a miss. -/
theorem C19_always_admit (cache_size : Nat) (hcs : 1 ≤ cache_size) (pre : List Nat)
    (id : Nat) :
    ∃ sr0 sr sr2, (SVMScheduler.new cache_size).run pre = some sr0 ∧
      (SVMScheduler.new cache_size).run (pre ++ [id]) = some sr ∧
      (∃ rec, mapFind sr.1.ObjInfo id = some rec ∧ rec.IsInCache = true ∧
        (rec.LastVisitedTime : Int) = sr.1.Gen.TimeStamp ∧
        sr.1.Gen.TimeStamp = pre.length ∧
        ({ obj_id := id, LastVisitedTime := rec.LastVisitedTime,
           CacheFriend := rec.CacheFriend } : CacheObject) ∈ sr.1.Cache) ∧
      sr.1.CheckInCache id = true ∧ id ∈ sr.1.resident ∧
      (∀ k, k ∈ sr0.1.resident → k ∉ sr.1.resident → k ≠ id) ∧
      (SVMScheduler.new cache_size).run (pre ++ [id, id]) = some sr2 ∧
      sr2.2.cache_misses = sr.2.cache_misses := by
  obtain ⟨sr0, h0, -⟩ := SVMScheduler.run_Reach cache_size hcs pre
  obtain ⟨sr, h1, hinv, hr, hsz, hgen, -⟩ := SVMScheduler.run_Reach cache_size hcs (pre ++ [id])
  -- the last access of the run over `pre ++ [id]`
  have hlast : ∃ (s : SVMScheduler) (r : Result), s.access r id = some sr := by
    unfold SVMScheduler.run at h1
    rw [SVMScheduler.runFrom_append, Option.bind_eq_some] at h1
    obtain ⟨srp, -, hp2⟩ := h1
    rw [SVMScheduler.runFrom_singleton] at hp2
    exact ⟨srp.1, srp.2, hp2⟩
  obtain ⟨s, r, ha⟩ := hlast
  obtain ⟨f1, -, -, -, ⟨rec, r1, r2, r3, -, -⟩, -⟩ := s.access_frame r id sr ha
  have hlen : sr.1.Gen.TimeStamp = pre.length := by
    have := OPTgen.new_feed_TimeStamp cache_size (pre ++ [id])
    rw [← hgen] at this
    simp only [List.length_append, List.length_singleton, Nat.cast_add, Nat.cast_one] at this
    omega
  have hT : (0 : Int) ≤ sr.1.Gen.TimeStamp := by
    rw [hlen]
    exact Int.ofNat_nonneg _
  have hclock : (rec.LastVisitedTime : Int) = sr.1.Gen.TimeStamp := by
    rw [r3, ← f1]
    exact Int.toNat_of_nonneg hT
  have hmem := ConsistentCO.mem_of_cached hinv.1 id rec r1 r2
  have hres : id ∈ sr.1.resident := by
    unfold SVMScheduler.resident
    exact List.mem_map.2 ⟨_, hmem, rfl⟩
  have hcheck : sr.1.CheckInCache id = true := by
    simp [SVMScheduler.CheckInCache, r1, r2]
  -- the following access to the same id
  obtain ⟨sr3, b1, -, -⟩ := sr.1.access_Inv hinv (by omega) sr.2 id
  have hres3 := (sr.1.access_frame sr.2 id sr3 b1).2.2.2.1
  rw [if_pos hcheck] at hres3
  have hrun2 : ∃ sr2, (SVMScheduler.new cache_size).run (pre ++ [id, id]) = some sr2 ∧
      sr2.2.cache_misses = sr.2.cache_misses := by
    have happ : pre ++ [id, id] = (pre ++ [id]) ++ [id] := by simp
    unfold SVMScheduler.run at h1 ⊢
    obtain ⟨m, e1, e2⟩ := SVMScheduler.runFrom_result _ _ _ sr h1
    rw [happ, SVMScheduler.runFrom_append, e2, Option.some_bind,
      SVMScheduler.runFrom_singleton]
    simp only
    rw [sr.1.access_result sr.2 _ id sr3 b1, if_pos hcheck]
    refine ⟨_, rfl, ?_⟩
    rw [e1]
  obtain ⟨sr2, c1, c2⟩ := hrun2
  exact ⟨sr0, sr, sr2, h0, h1, ⟨rec, r1, r2, hclock, hlen, hmem⟩, hcheck, hres,
    fun k _ hk e => hk (e ▸ hres), c1, c2⟩

/-- C19, instance: capacity 2 and the stream `[1, 2, 3]` followed by an access
to object 1, which evicts object 2 and admits object 1. -/
theorem C19_always_admit_witness :
    ((SVMScheduler.new 2).run [1, 2, 3, 1]).map (fun sr => (sr.1.resident, sr.2.cache_misses))
        = some ([3, 1], 4) ∧
    ((SVMScheduler.new 2).run [1, 2, 3, 1, 1]).map (fun sr => sr.2.cache_misses) = some 4 ∧
    ∃ sr0 sr sr2, (SVMScheduler.new 2).run [1, 2, 3] = some sr0 ∧
      (SVMScheduler.new 2).run ([1, 2, 3] ++ [1]) = some sr ∧
      (∃ rec, mapFind sr.1.ObjInfo 1 = some rec ∧ rec.IsInCache = true ∧
        (rec.LastVisitedTime : Int) = sr.1.Gen.TimeStamp ∧
        sr.1.Gen.TimeStamp = [1, 2, 3].length ∧
        ({ obj_id := 1, LastVisitedTime := rec.LastVisitedTime,
           CacheFriend := rec.CacheFriend } : CacheObject) ∈ sr.1.Cache) ∧
      sr.1.CheckInCache 1 = true ∧ 1 ∈ sr.1.resident ∧
      (∀ k, k ∈ sr0.1.resident → k ∉ sr.1.resident → k ≠ 1) ∧
      (SVMScheduler.new 2).run ([1, 2, 3] ++ [1, 1]) = some sr2 ∧
      sr2.2.cache_misses = sr.2.cache_misses :=
  ⟨by decide, by decide, C19_always_admit 2 (by decide) [1, 2, 3] 1⟩

/-! ## The actual range of weights and priorities -/

/-- Capacity 2 and 32 accesses to object 7 drive a weight to 31. -/
theorem weight_31_attained :
    ((SVMScheduler.new 2).run (List.replicate 32 7)).bind (fun sr => sr.1.weight 7 7)
      = some 31 := by
  decide

set_option maxRecDepth 100000 in
/-- Capacity 1 and the stream `[1, 2, 2]` repeated 31 times followed by `1`:
every access to object 1 after the first is labelled `Miss`, which drives its
weight for context 2 to -31. -/
theorem weight_neg31_attained :
    ((SVMScheduler.new 1).run ((List.replicate 31 [1, 2, 2]).flatten ++ [1])).bind
      (fun sr => sr.1.weight 1 2) = some (-31) := by
  decide

/-- C20: for every capacity `≥ 1` and every request stream, `run` returns and
every stored weight lies in
`[-(TrainingThreshold + LearningRate), TrainingThreshold + LearningRate]`
`= [-31, 31]`; both bounds are attained by some stream; the register holds at
most `PCHRSize = 5` contexts, so every priority (`CacheFriend`) in the
eviction set and in the records, and every prediction computed for a next
access, lies in `[-155, 155]`. -/
theorem C20_weight_and_priority_range (cache_size : Nat) (hcs : 1 ≤ cache_size)
    (requests : List Nat) :
    (∃ sr, (SVMScheduler.new cache_size).run requests = some sr ∧
      (∀ p ∈ sr.1.ObjInfo, ∀ q ∈ p.2.weights,
        -(TrainingThreshold + LearningRate) ≤ q.2 ∧ q.2 ≤ TrainingThreshold + LearningRate) ∧
      sr.1.PCRegister.elements.length ≤ PCHR.PCHRSize ∧
      (∀ c ∈ sr.1.Cache, -155 ≤ c.CacheFriend ∧ c.CacheFriend ≤ 155) ∧
      (∀ k rec, mapFind sr.1.ObjInfo k = some rec →
        -155 ≤ rec.CacheFriend ∧ rec.CacheFriend ≤ 155) ∧
      (∀ status id, -155 ≤ sr.1.prediction status id ∧ sr.1.prediction status id ≤ 155)) ∧
    TrainingThreshold + LearningRate = 31 ∧
    (PCHR.PCHRSize : Int) * (TrainingThreshold + LearningRate) = 155 ∧
    (∃ cap stream id v, 1 ≤ cap ∧
      ((SVMScheduler.new cap).run stream).bind (fun sr => sr.1.weight id v) = some 31) ∧
    (∃ cap stream id v, 1 ≤ cap ∧
      ((SVMScheduler.new cap).run stream).bind (fun sr => sr.1.weight id v) = some (-31)) := by
  obtain ⟨sr, h1, hinv, hr, -, -, -⟩ := SVMScheduler.run_Reach cache_size hcs requests
  obtain ⟨-, k2, k3, k4, -, -⟩ := hr
  refine ⟨⟨sr, h1, k3, k4, ?_, k2, fun status id => sr.1.prediction_bound k3 k4 status id⟩,
    rfl, rfl, ⟨2, List.replicate 32 7, 7, 7, by decide, weight_31_attained⟩,
    ⟨1, (List.replicate 31 [1, 2, 2]).flatten ++ [1], 1, 2, by decide, weight_neg31_attained⟩⟩
  intro c hc
  obtain ⟨rec, g1, -, g3⟩ := ConsistentCO.rec_of_mem hinv.1 c hc
  have := k2 c.obj_id rec g1
  rw [← g3]
  exact this

/-- C20, instance: capacity 1 and the stream `[1, 2, 2, 1, 2, 2, 1]`. -/
theorem C20_weight_and_priority_range_witness :
    ((SVMScheduler.new 1).run [1, 2, 2, 1, 2, 2, 1]).bind (fun sr => sr.1.weight 1 2)
        = some (-2) ∧
    ((∃ sr, (SVMScheduler.new 1).run [1, 2, 2, 1, 2, 2, 1] = some sr ∧
      (∀ p ∈ sr.1.ObjInfo, ∀ q ∈ p.2.weights,
        -(TrainingThreshold + LearningRate) ≤ q.2 ∧ q.2 ≤ TrainingThreshold + LearningRate) ∧
      sr.1.PCRegister.elements.length ≤ PCHR.PCHRSize ∧
      (∀ c ∈ sr.1.Cache, -155 ≤ c.CacheFriend ∧ c.CacheFriend ≤ 155) ∧
      (∀ k rec, mapFind sr.1.ObjInfo k = some rec →
        -155 ≤ rec.CacheFriend ∧ rec.CacheFriend ≤ 155) ∧
      (∀ status id, -155 ≤ sr.1.prediction status id ∧ sr.1.prediction status id ≤ 155)) ∧
    TrainingThreshold + LearningRate = 31 ∧
    (PCHR.PCHRSize : Int) * (TrainingThreshold + LearningRate) = 155 ∧
    (∃ cap stream id v, 1 ≤ cap ∧
      ((SVMScheduler.new cap).run stream).bind (fun sr => sr.1.weight id v) = some 31) ∧
    (∃ cap stream id v, 1 ≤ cap ∧
      ((SVMScheduler.new cap).run stream).bind (fun sr => sr.1.weight id v) = some (-31))) :=
  ⟨by decide, C20_weight_and_priority_range 1 (by decide) [1, 2, 2, 1, 2, 2, 1]⟩

end SVM
